import Mathlib

/-!
Verification development for the pylaundry repository.

The repository consists of two pandas-based preprocessing functions,
`fill_missing` (src/pylaundry/fill_missing.py) and `transform_columns`
(src/pylaundry/transform_columns.py).  This file gives a shallow embedding
of both functions and proves the frozen claims about them.

Modelling conventions:
* a DataFrame cell is `Option ℚ`; `none` models the floating NaN / null
  sentinel (the validation of `fill_missing` forces every column to a
  numeric dtype, so NaN is the only form of missingness that can occur);
* a DataFrame is a row-index label list, a flag recording whether its
  column axis is a default `pd.RangeIndex` (used only by the
  `transform_columns` validation), and a list of named columns, each
  carrying a flag recording whether its dtype is numeric (float or int);
* label-based assignment `df.loc[labels, col] = v` is modelled by
  `setByLabels`: every row whose index label is a member of `labels`
  receives `v` (this is the pandas semantics, including the case of
  duplicated index labels);
* assertion failures and raised exceptions are modelled with
  `Except String`; the quotation marks that the Python assertion
  messages place around words are omitted from the message strings;
* Python object identity for the mutation claims is modelled by a heap
  of objects addressed by natural numbers (`Heap`), with `fillMissingRef`
  writing the filled frames back through the references it was given and
  `transformColumnsRef` allocating fresh references;
* the real-valued outputs of `transform_columns` (standard scaling
  divides by a square root) live in a separate real-valued frame type
  `DFR`; its input frames keep rational cells, which is faithful since
  every concrete pandas input is a finite decimal.
-/

namespace Pylaundry

/-- Cell of a pandas column; `none` models the floating NaN / null sentinel. -/
abbrev Cell := Option ℚ

/-- Column of a DataFrame: its name, whether its dtype is numeric
(float or int), and its values. -/
structure Col where
  name : String
  numDtype : Bool
  vals : List Cell
deriving DecidableEq

/-- Pandas DataFrame: row-index labels, whether the column axis is a
default `pd.RangeIndex`, and the list of columns. -/
structure DF where
  index : List Int
  rangeCols : Bool
  cols : List Col
deriving DecidableEq

/-- Column names of a frame, in order (`df.columns`). -/
def DF.colNames (df : DF) : List String :=
  df.cols.map (fun c => c.name)

/-- First column with a given name in a column list. -/
def findCol (c : String) : List Col → Option Col
  | [] => none
  | col :: rest => if col.name = c then some col else findCol c rest

/-- Column selection `df[c]` (first column with the given name). -/
def DF.getCol (df : DF) (c : String) : Option (List Cell) :=
  (findCol c df.cols).map (fun col => col.vals)

/-- Well-formedness of a frame: every column has one value per index label. -/
def DF.WF (df : DF) : Prop :=
  ∀ col ∈ df.cols, col.vals.length = df.index.length

/-- Column classification dictionary (`column_dict`): association list from
key strings to lists of column names.  Python dictionaries have unique keys;
key uniqueness is assumed as a hypothesis where it matters. -/
abbrev ColDict := List (String × List String)

/-- Keys of a `column_dict`. -/
def keysOf (cd : ColDict) : List String :=
  cd.map (fun kv => kv.1)

/-- Dictionary lookup `column_dict[k]` (first binding of the key; a Python
dictionary has at most one). -/
def lookupKey : ColDict → String → Option (List String)
  | [], _ => none
  | kv :: rest, k => if kv.1 = k then some kv.2 else lookupKey rest k

/-- Mean of a list of rationals (`Series.mean` over the non-missing values). -/
def meanList (xs : List ℚ) : ℚ :=
  xs.sum / (xs.length : ℚ)

/-- Median of a list of rationals, as pandas computes it: sort, take the middle
element for odd length and the average of the two middle elements for even
length; `none` for the empty list (pandas returns NaN). -/
def medianList (xs : List ℚ) : Cell :=
  let s := List.insertionSort (fun a b => a ≤ b) xs
  if s.length = 0 then none
  else if s.length % 2 = 1 then s.get? (s.length / 2)
  else
    match s.get? (s.length / 2 - 1), s.get? (s.length / 2) with
    | some a, some b => some ((a + b) / 2)
    | _, _ => none

/-- Imputation value for a numeric column (`X_train[column].mean()` or
`X_train[column].median()`), computed over the non-missing values; `none`
models the NaN that pandas returns on an all-missing column.  The validation
of `fill_missing` guarantees that the method string is mean or median. -/
def numericColImp (ni : String) (vals : List Cell) : Cell :=
  let xs := vals.filterMap id
  if ni = "mean" then (if xs.length = 0 then none else some (meanList xs))
  else medianList xs

/-- Number of occurrences of a value in a list of rationals. -/
def countQ (v : ℚ) : List ℚ → ℕ
  | [] => 0
  | x :: rest => (if x = v then 1 else 0) + countQ v rest

/-- Largest multiplicity occurring in a list of rationals. -/
def maxCount (xs : List ℚ) : ℕ :=
  xs.foldl (fun acc v => max acc (countQ v xs)) 0

/-- Minimum of a list of rationals, `none` on the empty list. -/
def listMin (xs : List ℚ) : Option ℚ :=
  xs.foldl
    (fun acc v =>
      match acc with
      | none => some v
      | some m => some (min m v)) none

/-- Mode head `X_train[column].mode()[0]`: pandas drops the missing values,
collects the values of maximal multiplicity sorted ascending, and `[0]`
selects the smallest; on an all-missing column `mode()` is empty and `[0]`
raises, modelled by `none`. -/
def seriesMode (vals : List Cell) : Cell :=
  let xs := vals.filterMap id
  listMin (xs.filter (fun v => countQ v xs == maxCount xs))

/-- Index labels of the rows whose cell in the given column is missing
(`X[column].index[X[column].apply(np.isnan)]`, and identically
`X[column].index[X[column].isnull()]` since every dtype is numeric). -/
def missingLabels (idx : List Int) (vals : List Cell) : List Int :=
  (idx.zip vals).filterMap (fun p => if p.2 = none then some p.1 else none)

/-- Label-based column assignment `df.loc[labels, column] = v`: every row
whose index label belongs to `labels` receives `v`. -/
def setByLabels (idx : List Int) (vals : List Cell) (labels : List Int) (v : Cell) :
    List Cell :=
  (idx.zip vals).map (fun p => if p.1 ∈ labels then v else p.2)

/-- One fill of the body loops of `fill_missing`: compute the labels of the
missing rows of column `c` and assign `v` to them in place. -/
def fillColInDF (df : DF) (c : String) (v : Cell) : DF :=
  let labels := missingLabels df.index ((df.getCol c).getD [])
  ⟨df.index, df.rangeCols,
    df.cols.map (fun col =>
      if col.name = c then ⟨col.name, col.numDtype, setByLabels df.index col.vals labels v⟩
      else col)⟩

/-- One iteration of the numeric imputation loop: the fill value is computed
from the current training frame only and applied to train and test. -/
def numStep (ni : String) (st : DF × DF) (c : String) : DF × DF :=
  let v := numericColImp ni ((st.1.getCol c).getD [])
  (fillColInDF st.1 c v, fillColInDF st.2 c v)

/-- Numeric imputation loop of `fill_missing` over the listed columns. -/
def numLoop (ni : String) : List String → DF × DF → DF × DF
  | [], st => st
  | c :: rest, st => numLoop ni rest (numStep ni st c)

/-- Categorical imputation loop of `fill_missing`: `mode()[0]` raises a
KeyError on an all-missing column, otherwise the mode of the current
training column is applied to train and test. -/
def catLoop : List String → DF × DF → Except String (DF × DF)
  | [], st => .ok st
  | c :: rest, st =>
    match seriesMode ((st.1.getCol c).getD []) with
    | none => .error "KeyError: 0"
    | some m => catLoop rest (fillColInDF st.1 c (some m), fillColInDF st.2 c (some m))

/-- Validation chain of `fill_missing`, in source order, returning the
message of the first failing assertion.  The `isinstance` assertions are
enforced by the types of the embedding and cannot fail. -/
def fillCheck (tr te : DF) (cd : ColDict) (ni ci : String) : Option String :=
  if ¬ (tr.colNames = te.colNames) then
    some "X_train and X_test must have the same columns"
  else if ¬ (∀ k ∈ keysOf cd, k = "numeric" ∨ k = "categorical") then
    some "column_dict keys can be only numeric and categorical"
  else if ¬ (∀ kv ∈ cd, ∀ c ∈ kv.2, c ∈ tr.colNames) then
    some "columns in dictionary must be in dataframe"
  else if ¬ (ni = "mean" ∨ ni = "median") then
    some "numerical imputation method can only be mean or median"
  else if ¬ (ci = "mode") then
    some "cat_imp can only take mode as argument value"
  else if ¬ (∀ col ∈ tr.cols, col.numDtype = true) then
    some "column values must be all numeric, must encode categorical variables as integers"
  else none

/-- Embedding of `fill_missing` (src/pylaundry/fill_missing.py): validation,
then the numeric imputation loop over `column_dict[numeric]`, then the
categorical imputation loop over `column_dict[categorical]`.  A dictionary
missing one of the two keys passes validation and raises a KeyError at the
lookup, exactly as in the source. -/
def fillMissing (tr te : DF) (cd : ColDict) (ni ci : String) :
    Except String (DF × DF) :=
  match fillCheck tr te cd ni ci with
  | some m => .error m
  | none =>
    match lookupKey cd "numeric" with
    | none => .error "KeyError: numeric"
    | some nums =>
      let st := numLoop ni nums (tr, te)
      match lookupKey cd "categorical" with
      | none => .error "KeyError: categorical"
      | some cats => catLoop cats st

/-- Extraction of an all-non-missing column as a rational list; `none` if
some cell is missing (scikit-learn raises on NaN input). -/
def cellsQ : List Cell → Option (List ℚ)
  | [] => some []
  | none :: _ => none
  | some x :: rest => (cellsQ rest).map (fun xs => x :: xs)

/-- Rational values of a named column, when it exists and has no missing cell. -/
def colQ (df : DF) (c : String) : Option (List ℚ) :=
  (df.getCol c).bind cellsQ

/-- Rational values of a named column with a default for the failure cases
(used to state theorems; under a successful call the default is not taken). -/
def colQD (df : DF) (c : String) : List ℚ :=
  (colQ df c).getD []

/-- Extraction of the listed columns for the transformers; the first column
with a missing cell makes scikit-learn raise its NaN error. -/
def extractCols (df : DF) : List String → Except String (List (List ℚ))
  | [] => .ok []
  | c :: rest =>
    match colQ df c with
    | some xs => (extractCols df rest).map (fun ls => xs :: ls)
    | none => .error "Input contains NaN"

/-- Categories that `OneHotEncoder` / `OrdinalEncoder` fit on a column:
the distinct values sorted ascending. -/
def categoriesOf (xs : List ℚ) : List ℚ :=
  List.insertionSort (fun a b => a ≤ b) xs.dedup

/-- Indicator-column name produced by `get_feature_names`: the original
column name, an underscore, and the category value. -/
def featName (c : String) (v : ℚ) : String :=
  c ++ "_" ++ toString v

/-- Names of the indicator columns of one categorical column: one per
fitted category level except the first (`drop=first`). -/
def oheNamesFor (c : String) (cats : List ℚ) : List String :=
  (cats.drop 1).map (featName c)

/-- Indicator column for one category level. -/
def indicator (l : ℚ) (xs : List ℚ) : List ℝ :=
  xs.map (fun x => if x = l then (1 : ℝ) else 0)

/-- Population variance (`ddof = 0`), as `StandardScaler` computes it. -/
def varQ (xs : List ℚ) : ℚ :=
  ((xs.map (fun x => (x - meanList xs) ^ 2)).sum) / (xs.length : ℚ)

/-- Scale used by `StandardScaler`: the standard deviation, with a zero
standard deviation replaced by 1 (`_handle_zeros_in_scale`). -/
noncomputable def stdScaleR (xs : List ℚ) : ℝ :=
  if varQ xs = 0 then 1 else Real.sqrt ((varQ xs : ℚ) : ℝ)

/-- Maximum of a list of rationals, `none` on the empty list. -/
def listMax (xs : List ℚ) : Option ℚ :=
  xs.foldl
    (fun acc v =>
      match acc with
      | none => some v
      | some m => some (max m v)) none

/-- Fitted minimum of `MinMaxScaler` (columns are nonempty on the paths
where this is used, since fitting on zero samples raises). -/
def minFit (xs : List ℚ) : ℚ :=
  (listMin xs).getD 0

/-- Scale used by `MinMaxScaler`: the data range, with a zero range
replaced by 1 (`_handle_zeros_in_scale`). -/
def mmScale (xs : List ℚ) : ℚ :=
  let d := (listMax xs).getD 0 - minFit xs
  if d = 0 then 1 else d

/-- Numeric transform of one value: parameters fitted on `fit`, applied to
`x`.  The validation guarantees the method string is standard or minmax
scaling. -/
noncomputable def numTransform (nt : String) (fit : List ℚ) (x : ℚ) : ℝ :=
  if nt = "standard_scaling" then ((x : ℝ) - ((meanList fit : ℚ) : ℝ)) / stdScaleR fit
  else (((x - minFit fit) / mmScale fit : ℚ) : ℝ)

/-- Real-valued output column of `transform_columns`. -/
structure RCol where
  name : String
  vals : List ℝ

/-- Real-valued output frame of `transform_columns`. -/
structure DFR where
  index : List Int
  cols : List RCol

/-- First column with a given name in an output column list. -/
def findRCol (c : String) : List RCol → Option RCol
  | [] => none
  | col :: rest => if col.name = c then some col else findRCol c rest

/-- Column selection on an output frame. -/
def DFR.getCol (df : DFR) (c : String) : Option (List ℝ) :=
  (findRCol c df.cols).map (fun col => col.vals)

/-- Column names of an output frame. -/
def DFR.colNames (df : DFR) : List String :=
  df.cols.map (fun c => c.name)

/-- Scaled numeric columns: fitted on the `fit` columns, applied to the
`data` columns, keeping the listed names and order. -/
noncomputable def scaledCols (nt : String) (names : List String)
    (fit data : List (List ℚ)) : List RCol :=
  (names.zip (fit.zip data)).map
    (fun p => RCol.mk p.1 (p.2.2.map (numTransform nt p.2.1)))

/-- One-hot columns: per categorical column, one indicator column per fitted
category level except the first, in category order. -/
def oheColsOf (names : List String) (fit data : List (List ℚ)) : List RCol :=
  ((names.zip (fit.zip data)).map
    (fun p => ((categoriesOf p.2.1).drop 1).map
      (fun l => RCol.mk (featName p.1 l) (indicator l p.2.2)))).flatten

/-- Position of a value in a fitted category list (`OrdinalEncoder` code). -/
def idxOf (x : ℚ) : List ℚ → ℕ
  | [] => 0
  | y :: rest => if y = x then 0 else idxOf x rest + 1

/-- Ordinal (label-encoding) columns: each value replaced by the position of
its category in the fitted sorted category list. -/
def ordColsOf (names : List String) (fit data : List (List ℚ)) : List RCol :=
  (names.zip (fit.zip data)).map
    (fun p => RCol.mk p.1
      (p.2.2.map (fun x => ((idxOf x (categoriesOf p.2.1) : ℕ) : ℝ))))

/-- Validation chain of `transform_columns`, in source order, returning the
message of the first failing assertion.  The `isinstance` assertions are
enforced by the types of the embedding and cannot fail. -/
def transCheck (tr te : DF) (cd : ColDict) (ct nt : String) : Option String :=
  if tr.rangeCols = true then some "column names must be strings"
  else if te.rangeCols = true then some "column names must be strings"
  else if ¬ (cd.length = 2) then
    some "column_dict should have 2 keys - numeric and categorical"
  else if ¬ (∀ k ∈ keysOf cd, k = "numeric" ∨ k = "categorical") then
    some "column_dict keys can be only numeric and categorical"
  else if ¬ (nt = "standard_scaling" ∨ nt = "minmax_scaling") then
    some "transformation method for numeric columns can only be minmax_scaling or standard_scaling"
  else if ¬ (ct = "onehot_encoding" ∨ ct = "label_encoding") then
    some "transformation method for categorical columns can only be label_encoding or onehot_encoding"
  else if ¬ (tr.colNames = te.colNames) then
    some "X_train and X_test must have the same columns"
  else if ¬ (∀ kv ∈ cd, ∀ c ∈ kv.2, c ∈ tr.colNames) then
    some "columns in dictionary must be in dataframe"
  else none

/-- Unknown-category check for the test frame: both `OneHotEncoder` and
`OrdinalEncoder` raise when a test value was not seen among the fitted
train values. -/
def allKnown (fit data : List (List ℚ)) : Prop :=
  ∀ p ∈ fit.zip data, ∀ x ∈ p.2, x ∈ p.1

/-- Embedding of `transform_columns` (src/pylaundry/transform_columns.py):
validation, then a `ColumnTransformer` with a scaler on the numeric columns
and an encoder on the categorical columns is fitted on the train frame via
`fit_transform` and applied to the test frame via `transform`; both output
frames keep their input row index and carry the numeric column names
followed by the encoder output names. -/
noncomputable def transformColumns (tr te : DF) (cd : ColDict) (ct nt : String) :
    Except String (DFR × DFR) :=
  match transCheck tr te cd ct nt with
  | some m => .error m
  | none =>
    match lookupKey cd "numeric", lookupKey cd "categorical" with
    | some nums, some cats =>
      if tr.index.length = 0 ∨ te.index.length = 0 then
        .error "Found array with 0 samples"
      else
        match extractCols tr nums, extractCols tr cats with
        | .ok trN, .ok trC =>
          match extractCols te nums, extractCols te cats with
          | .ok teN, .ok teC =>
            if ∀ p ∈ trC.zip teC, ∀ x ∈ p.2, x ∈ p.1 then
              if ct = "onehot_encoding" then
                .ok (⟨tr.index, scaledCols nt nums trN trN ++ oheColsOf cats trC trC⟩,
                     ⟨te.index, scaledCols nt nums trN teN ++ oheColsOf cats trC teC⟩)
              else
                .ok (⟨tr.index, scaledCols nt nums trN trN ++ ordColsOf cats trC trC⟩,
                     ⟨te.index, scaledCols nt nums trN teN ++ ordColsOf cats trC teC⟩)
            else .error "Found unknown categories"
          | .error m, _ => .error m
          | .ok _, .error m => .error m
        | .error m, _ => .error m
        | .ok _, .error m => .error m
    | none, _ => .error "KeyError: numeric"
    | some _, none => .error "KeyError: categorical"

/-- Heap object: a pandas frame (rational cells) or a transform output
frame (real cells). -/
inductive Obj where
  | q (df : DF)
  | r (df : DFR)

/-- Heap of Python objects, addressed by position; models object identity. -/
abbrev Heap := List Obj

/-- Reference-level `fill_missing`: reads the two frames through the given
references, and on success writes the filled frames back through the same
references and returns those references, modelling the in-place `.loc`
mutation and the `return` of the very same objects. -/
def fillMissingRef (h : Heap) (i j : ℕ) (cd : ColDict) (ni ci : String) :
    Heap × Except String (ℕ × ℕ) :=
  match h.get? i, h.get? j with
  | some (.q tr), some (.q te) =>
    match fillMissing tr te cd ni ci with
    | .ok (a, b) => ((h.set i (.q a)).set j (.q b), .ok (i, j))
    | .error m => (h, .error m)
  | _, _ => (h, .error "invalid reference")

/-- Reference-level `transform_columns`: reads the two frames through the
given references, never writes to them, and on success allocates two fresh
objects for the rebuilt frames. -/
noncomputable def transformColumnsRef (h : Heap) (i j : ℕ) (cd : ColDict)
    (ct nt : String) : Heap × Except String (ℕ × ℕ) :=
  match h.get? i, h.get? j with
  | some (.q tr), some (.q te) =>
    match transformColumns tr te cd ct nt with
    | .ok (a, b) => (h ++ [.r a, .r b], .ok (h.length, h.length + 1))
    | .error m => (h, .error m)
  | _, _ => (h, .error "invalid reference")

/-- Ghost replay of the numeric imputation loop on the train side alone:
returns the train frame after the loop together with the list of
(column, fill value) pairs, in loop order.  Every quantity is computed from
the train frame; this function never sees the test frame. -/
def numPlanLoop (ni : String) : List String → DF → DF × List (String × Cell)
  | [], tr => (tr, [])
  | c :: rest, tr =>
    let v := numericColImp ni ((tr.getCol c).getD [])
    let r := numPlanLoop ni rest (fillColInDF tr c v)
    (r.1, (c, v) :: r.2)

/-- Ghost replay of the categorical imputation loop on the train side alone:
`none` when `mode()[0]` raises. -/
def catPlanLoop : List String → DF → Option (DF × List (String × Cell))
  | [], tr => some (tr, [])
  | c :: rest, tr =>
    match seriesMode ((tr.getCol c).getD []) with
    | none => none
    | some m =>
      (catPlanLoop rest (fillColInDF tr c (some m))).map
        (fun r => (r.1, (c, some m) :: r.2))

/-- Application of a fill plan to a frame: fill the missing rows of each
listed column with the recorded value, in order. -/
def applyPlan (df : DF) (plan : List (String × Cell)) : DF :=
  plan.foldl (fun d p => fillColInDF d p.1 p.2) df

/-- Complete fill plan of a `fill_missing` call: computed from the train
frame, the column dictionary and the numeric method only — the test frame
does not occur.  `none` when the call raises inside the categorical loop. -/
def fillPlanOf (tr : DF) (cd : ColDict) (ni : String) :
    Option (List (String × Cell)) :=
  match lookupKey cd "numeric", lookupKey cd "categorical" with
  | some nums, some cats =>
    let np := numPlanLoop ni nums tr
    (catPlanLoop cats np.1).map (fun cp => np.2 ++ cp.2)
  | _, _ => none

/-- Conjunction of the statable preconditions asserted by `fill_missing`,
in source order (the `isinstance` assertions are enforced by the types of
the embedding). -/
def fillValid (tr te : DF) (cd : ColDict) (ni ci : String) : Prop :=
  tr.colNames = te.colNames ∧
  (∀ k ∈ keysOf cd, k = "numeric" ∨ k = "categorical") ∧
  (∀ kv ∈ cd, ∀ c ∈ kv.2, c ∈ tr.colNames) ∧
  (ni = "mean" ∨ ni = "median") ∧
  ci = "mode" ∧
  (∀ col ∈ tr.cols, col.numDtype = true)

/-- The message identifies a violated precondition of `fill_missing`: it is
the message of one of the assertions and that assertion's condition fails. -/
def fillViolation (tr te : DF) (cd : ColDict) (ni ci : String) (msg : String) : Prop :=
  (msg = "X_train and X_test must have the same columns" ∧
    ¬ tr.colNames = te.colNames) ∨
  (msg = "column_dict keys can be only numeric and categorical" ∧
    ¬ (∀ k ∈ keysOf cd, k = "numeric" ∨ k = "categorical")) ∨
  (msg = "columns in dictionary must be in dataframe" ∧
    ¬ (∀ kv ∈ cd, ∀ c ∈ kv.2, c ∈ tr.colNames)) ∨
  (msg = "numerical imputation method can only be mean or median" ∧
    ¬ (ni = "mean" ∨ ni = "median")) ∨
  (msg = "cat_imp can only take mode as argument value" ∧ ¬ ci = "mode") ∨
  (msg = "column values must be all numeric, must encode categorical variables as integers" ∧
    ¬ (∀ col ∈ tr.cols, col.numDtype = true))

/-- Conjunction of the statable preconditions asserted by
`transform_columns`, in source order. -/
def transValid (tr te : DF) (cd : ColDict) (ct nt : String) : Prop :=
  tr.rangeCols = false ∧
  te.rangeCols = false ∧
  cd.length = 2 ∧
  (∀ k ∈ keysOf cd, k = "numeric" ∨ k = "categorical") ∧
  (nt = "standard_scaling" ∨ nt = "minmax_scaling") ∧
  (ct = "onehot_encoding" ∨ ct = "label_encoding") ∧
  tr.colNames = te.colNames ∧
  (∀ kv ∈ cd, ∀ c ∈ kv.2, c ∈ tr.colNames)

/-- The message identifies a violated precondition of `transform_columns`. -/
def transViolation (tr te : DF) (cd : ColDict) (ct nt : String) (msg : String) : Prop :=
  (msg = "column names must be strings" ∧
    ¬ (tr.rangeCols = false ∧ te.rangeCols = false)) ∨
  (msg = "column_dict should have 2 keys - numeric and categorical" ∧
    ¬ cd.length = 2) ∨
  (msg = "column_dict keys can be only numeric and categorical" ∧
    ¬ (∀ k ∈ keysOf cd, k = "numeric" ∨ k = "categorical")) ∨
  (msg = "transformation method for numeric columns can only be minmax_scaling or standard_scaling" ∧
    ¬ (nt = "standard_scaling" ∨ nt = "minmax_scaling")) ∨
  (msg = "transformation method for categorical columns can only be label_encoding or onehot_encoding" ∧
    ¬ (ct = "onehot_encoding" ∨ ct = "label_encoding")) ∨
  (msg = "X_train and X_test must have the same columns" ∧
    ¬ tr.colNames = te.colNames) ∨
  (msg = "columns in dictionary must be in dataframe" ∧
    ¬ (∀ kv ∈ cd, ∀ c ∈ kv.2, c ∈ tr.colNames))

/-- Example reference frame for the frame-condition witness. -/
def trW8 : DF := ⟨[0, 1], false, [⟨"a", true, [some 1, none]⟩]⟩

/-- Example target frame for the frame-condition witness. -/
def teW8 : DF := ⟨[7], false, [⟨"a", true, [some 2]⟩]⟩

/-- Example column dictionary with one numeric column. -/
def cdW : ColDict := [("numeric", ["a"]), ("categorical", [])]

/-- Example reference frame for the transform witnesses. -/
def trW9 : DF := ⟨[0, 1], false, [⟨"a", true, [some 1, some 2]⟩]⟩

/-- Example target frame for the transform witnesses. -/
def teW9 : DF := ⟨[5], false, [⟨"a", true, [some 1]⟩]⟩

/-! Positional lemmas about `zip`, used to reason about label-based fills. -/

theorem zip_get?_iff {α β : Type} (l₁ : List α) (l₂ : List β) (i : ℕ) (a : α) (b : β) :
    (l₁.zip l₂).get? i = some (a, b) ↔ l₁.get? i = some a ∧ l₂.get? i = some b := by
  induction l₁ generalizing l₂ i with
  | nil => simp [List.zip]
  | cons x xs ih =>
    cases l₂ with
    | nil => simp [List.zip]
    | cons y ys =>
      cases i with
      | zero => simp [List.zip]
      | succ n => simpa using ih ys n

theorem mem_zip_iff_get? {α β : Type} (l₁ : List α) (l₂ : List β) (p : α × β) :
    p ∈ l₁.zip l₂ ↔ ∃ i, l₁.get? i = some p.1 ∧ l₂.get? i = some p.2 := by
  rw [List.mem_iff_get?]
  constructor
  · rintro ⟨i, hi⟩
    exact ⟨i, (zip_get?_iff l₁ l₂ i p.1 p.2).1 (by simpa using hi)⟩
  · rintro ⟨i, h1, h2⟩
    exact ⟨i, by simpa using (zip_get?_iff l₁ l₂ i p.1 p.2).2 ⟨h1, h2⟩⟩

/-! Lemmas about `missingLabels` and `setByLabels`. -/

theorem mem_missingLabels_iff (idx : List Int) (vals : List Cell) (lab : Int) :
    lab ∈ missingLabels idx vals ↔
      ∃ i, idx.get? i = some lab ∧ vals.get? i = some none := by
  unfold missingLabels
  rw [List.mem_filterMap]
  constructor
  · rintro ⟨p, hp, hif⟩
    by_cases h2 : p.2 = none
    · simp only [h2, if_true, Option.some_inj] at hif
      obtain ⟨i, h1, hv⟩ := (mem_zip_iff_get? idx vals p).1 hp
      exact ⟨i, by rwa [hif] at h1, by rwa [h2] at hv⟩
    · simp [h2] at hif
  · rintro ⟨i, h1, h2⟩
    refine ⟨(lab, none), (mem_zip_iff_get? idx vals (lab, none)).2 ⟨i, h1, h2⟩, by simp⟩

theorem setByLabels_get? (idx : List Int) (vals : List Cell) (labels : List Int)
    (v : Cell) (i : ℕ) (lab : Int) (x : Cell)
    (hidx : idx.get? i = some lab) (hv : vals.get? i = some x) :
    (setByLabels idx vals labels v).get? i = some (if lab ∈ labels then v else x) := by
  unfold setByLabels
  rw [List.get?_map, (zip_get?_iff idx vals i lab x).2 ⟨hidx, hv⟩]
  rfl

theorem setByLabels_length (idx : List Int) (vals : List Cell) (labels : List Int)
    (v : Cell) : (setByLabels idx vals labels v).length = (idx.zip vals).length := by
  unfold setByLabels
  exact List.length_map _ _

/-- A cell missing in the column receives the fill value (this needs no
uniqueness of the index: every missing label is collected). -/
theorem fill_missing_cell (idx : List Int) (vals : List Cell) (v : Cell) (i : ℕ)
    (hlen : vals.length = idx.length) (hv : vals.get? i = some none) :
    (setByLabels idx vals (missingLabels idx vals) v).get? i = some v := by
  have hi : i < vals.length := (List.get?_eq_some.1 hv).1
  have hidx : ∃ lab, idx.get? i = some lab := by
    have : i < idx.length := by omega
    cases h : idx.get? i with
    | none => exact absurd (List.get?_eq_none.1 h) (by omega)
    | some lab => exact ⟨lab, rfl⟩
  obtain ⟨lab, hlab⟩ := hidx
  rw [setByLabels_get? idx vals _ v i lab none hlab hv,
    if_pos ((mem_missingLabels_iff idx vals lab).2 ⟨i, hlab, hv⟩)]

/-- A cell present in the column is untouched, provided the index labels are
distinct.  (With duplicated labels pandas `.loc` can overwrite present
cells; see the counterexample to claim C8.) -/
theorem fill_nonmissing_cell (idx : List Int) (vals : List Cell) (v : Cell) (i : ℕ)
    (x : ℚ) (hlen : vals.length = idx.length) (hnd : idx.Nodup)
    (hv : vals.get? i = some (some x)) :
    (setByLabels idx vals (missingLabels idx vals) v).get? i = some (some x) := by
  have hi : i < vals.length := (List.get?_eq_some.1 hv).1
  have hidx : ∃ lab, idx.get? i = some lab := by
    cases h : idx.get? i with
    | none => exact absurd (List.get?_eq_none.1 h) (by omega)
    | some lab => exact ⟨lab, rfl⟩
  obtain ⟨lab, hlab⟩ := hidx
  rw [setByLabels_get? idx vals _ v i lab (some x) hlab hv]
  have hnot : lab ∉ missingLabels idx vals := by
    intro hmem
    obtain ⟨j, hj1, hj2⟩ := (mem_missingLabels_iff idx vals lab).1 hmem
    have hij : i = j := by
      have hi2 : i < idx.length := (List.get?_eq_some.1 hlab).1
      exact List.get?_inj hi2 hnd (hlab.trans hj1.symm)
    rw [← hij, hv] at hj2
    exact Option.noConfusion (Option.some.inj hj2)
  rw [if_neg hnot]

/-! Lemmas about column lookup and the single-column fill. -/

theorem findCol_name (c : String) (ls : List Col) (col : Col)
    (h : findCol c ls = some col) : col.name = c := by
  induction ls with
  | nil => exact Option.noConfusion h
  | cons hd tl ih =>
    unfold findCol at h
    by_cases hn : hd.name = c
    · rw [if_pos hn] at h
      rw [← Option.some_inj.1 h]
      exact hn
    · rw [if_neg hn] at h
      exact ih h

theorem findCol_mem (c : String) (ls : List Col) (col : Col)
    (h : findCol c ls = some col) : col ∈ ls := by
  induction ls with
  | nil => exact Option.noConfusion h
  | cons hd tl ih =>
    unfold findCol at h
    by_cases hn : hd.name = c
    · rw [if_pos hn] at h
      rw [← Option.some_inj.1 h]
      exact List.mem_cons_self hd tl
    · rw [if_neg hn] at h
      exact List.mem_cons_of_mem hd (ih h)

theorem findCol_eq_none_iff (c : String) (ls : List Col) :
    findCol c ls = none ↔ ∀ col ∈ ls, col.name ≠ c := by
  induction ls with
  | nil => simp [findCol]
  | cons hd tl ih =>
    unfold findCol
    by_cases hn : hd.name = c
    · simp [hn]
    · simp only [if_neg hn, ih]
      constructor
      · intro h col hm
        rcases List.mem_cons.1 hm with h1 | h1
        · rw [h1]; exact hn
        · exact h col h1
      · intro h col hm
        exact h col (List.mem_cons_of_mem hd hm)

theorem findCol_map (c : String) (ls : List Col) (g : Col → Col)
    (hg : ∀ col, (g col).name = col.name) :
    findCol c (ls.map g) = (findCol c ls).map g := by
  induction ls with
  | nil => simp [findCol]
  | cons hd tl ih =>
    simp only [List.map_cons]
    unfold findCol
    rw [hg hd]
    by_cases hn : hd.name = c
    · simp [hn]
    · simp only [if_neg hn, ih]

theorem getCol_isSome_iff (df : DF) (c : String) :
    (df.getCol c).isSome ↔ c ∈ df.colNames := by
  unfold DF.getCol DF.colNames
  cases h : findCol c df.cols with
  | none =>
    simp only [Option.map_none', Option.isSome_none, Bool.false_eq_true, false_iff]
    intro hmem
    obtain ⟨col, hcol, hname⟩ := List.mem_map.1 hmem
    exact (findCol_eq_none_iff c df.cols).1 h col hcol hname
  | some col =>
    simp only [Option.map_some', Option.isSome_some, true_iff]
    exact List.mem_map.2 ⟨col, findCol_mem c df.cols col h, findCol_name c df.cols col h⟩

theorem getCol_eq_some_mem (df : DF) (c : String) (vals : List Cell)
    (h : df.getCol c = some vals) :
    ∃ col ∈ df.cols, col.name = c ∧ col.vals = vals := by
  unfold DF.getCol at h
  cases hf : findCol c df.cols with
  | none => rw [hf] at h; exact Option.noConfusion h
  | some col =>
    rw [hf] at h
    exact ⟨col, findCol_mem c df.cols col hf, findCol_name c df.cols col hf,
      Option.some_inj.1 h⟩

theorem fillColInDF_index (df : DF) (c : String) (v : Cell) :
    (fillColInDF df c v).index = df.index := rfl

theorem fillColInDF_rangeCols (df : DF) (c : String) (v : Cell) :
    (fillColInDF df c v).rangeCols = df.rangeCols := rfl

theorem fillColInDF_colNames (df : DF) (c : String) (v : Cell) :
    (fillColInDF df c v).colNames = df.colNames := by
  unfold fillColInDF DF.colNames
  simp only [List.map_map]
  apply List.map_congr_left
  intro col _
  by_cases hn : col.name = c
  · simp [hn]
  · simp [hn]

theorem getCol_fillColInDF_other (df : DF) (c nm : String) (v : Cell) (h : nm ≠ c) :
    (fillColInDF df c v).getCol nm = df.getCol nm := by
  unfold fillColInDF DF.getCol
  rw [findCol_map nm df.cols _ (by
    intro col
    by_cases hn : col.name = c
    · simp [hn]
    · simp [hn])]
  cases hf : findCol nm df.cols with
  | none => simp
  | some col =>
    have hname := findCol_name nm df.cols col hf
    have : col.name ≠ c := by rw [hname]; exact h
    simp [this]

theorem getCol_fillColInDF_self (df : DF) (c : String) (v : Cell) (vals : List Cell)
    (h : df.getCol c = some vals) :
    (fillColInDF df c v).getCol c =
      some (setByLabels df.index vals (missingLabels df.index vals) v) := by
  unfold fillColInDF DF.getCol
  rw [findCol_map c df.cols _ (by
    intro col
    by_cases hn : col.name = c
    · simp [hn]
    · simp [hn])]
  unfold DF.getCol at h
  cases hf : findCol c df.cols with
  | none => rw [hf] at h; exact Option.noConfusion h
  | some col =>
    rw [hf] at h
    have hname := findCol_name c df.cols col hf
    have hvals : col.vals = vals := Option.some_inj.1 h
    simp only [Option.map_some', Option.some_inj]
    rw [if_pos hname, ← hvals]
    simp [DF.getCol, hf, hvals]

theorem fillColInDF_WF (df : DF) (c : String) (v : Cell) (h : df.WF) :
    (fillColInDF df c v).WF := by
  unfold DF.WF at *
  unfold fillColInDF
  intro col hm
  simp only [List.mem_map] at hm
  obtain ⟨col0, hcol0, heq⟩ := hm
  by_cases hn : col0.name = c
  · rw [if_pos hn] at heq
    rw [← heq]
    simp only
    rw [setByLabels_length, List.length_zip, h col0 hcol0]
    simp
  · rw [if_neg hn] at heq
    rw [← heq]
    exact h col0 hcol0

/-! Lemmas relating the body loops of `fill_missing` to the train-side plan. -/

theorem applyPlan_nil (df : DF) : applyPlan df [] = df := rfl

theorem applyPlan_cons (df : DF) (c : String) (v : Cell) (p : List (String × Cell)) :
    applyPlan df ((c, v) :: p) = applyPlan (fillColInDF df c v) p := rfl

theorem applyPlan_append (df : DF) (p₁ p₂ : List (String × Cell)) :
    applyPlan df (p₁ ++ p₂) = applyPlan (applyPlan df p₁) p₂ := by
  unfold applyPlan
  exact List.foldl_append _ _ _ _

theorem numLoop_eq_plan (ni : String) (cs : List String) (tr te : DF) :
    numLoop ni cs (tr, te) =
      ((numPlanLoop ni cs tr).1, applyPlan te (numPlanLoop ni cs tr).2) := by
  induction cs generalizing tr te with
  | nil => simp [numLoop, numPlanLoop, applyPlan_nil]
  | cons c rest ih =>
    simp only [numLoop, numStep, numPlanLoop]
    rw [applyPlan_cons]
    exact ih _ _

theorem catLoop_eq_plan (cs : List String) (tr te : DF) :
    catLoop cs (tr, te) =
      match catPlanLoop cs tr with
      | none => .error "KeyError: 0"
      | some r => .ok (r.1, applyPlan te r.2) := by
  induction cs generalizing tr te with
  | nil => simp [catLoop, catPlanLoop, applyPlan_nil]
  | cons c rest ih =>
    simp only [catLoop, catPlanLoop]
    cases h : seriesMode ((tr.getCol c).getD []) with
    | none => simp
    | some m =>
      simp only
      rw [ih]
      cases h2 : catPlanLoop rest (fillColInDF tr c (some m)) with
      | none => simp
      | some r => simp [applyPlan_cons]

/-! Invariants of plan application. -/

theorem applyPlan_index (df : DF) (p : List (String × Cell)) :
    (applyPlan df p).index = df.index := by
  induction p generalizing df with
  | nil => rfl
  | cons hd tl ih =>
    rw [show hd = (hd.1, hd.2) from rfl, applyPlan_cons, ih, fillColInDF_index]

theorem applyPlan_rangeCols (df : DF) (p : List (String × Cell)) :
    (applyPlan df p).rangeCols = df.rangeCols := by
  induction p generalizing df with
  | nil => rfl
  | cons hd tl ih =>
    rw [show hd = (hd.1, hd.2) from rfl, applyPlan_cons, ih, fillColInDF_rangeCols]

theorem applyPlan_colNames (df : DF) (p : List (String × Cell)) :
    (applyPlan df p).colNames = df.colNames := by
  induction p generalizing df with
  | nil => rfl
  | cons hd tl ih =>
    rw [show hd = (hd.1, hd.2) from rfl, applyPlan_cons, ih, fillColInDF_colNames]

theorem applyPlan_WF (df : DF) (p : List (String × Cell)) (h : df.WF) :
    (applyPlan df p).WF := by
  induction p generalizing df with
  | nil => exact h
  | cons hd tl ih =>
    rw [show hd = (hd.1, hd.2) from rfl, applyPlan_cons]
    exact ih _ (fillColInDF_WF df hd.1 hd.2 h)

theorem applyPlan_getCol_not_mem (df : DF) (p : List (String × Cell)) (c : String)
    (h : c ∉ p.map Prod.fst) : (applyPlan df p).getCol c = df.getCol c := by
  induction p generalizing df with
  | nil => rfl
  | cons hd tl ih =>
    simp only [List.map_cons, List.mem_cons] at h
    push_neg at h
    rw [show hd = (hd.1, hd.2) from rfl, applyPlan_cons, ih _ h.2,
      getCol_fillColInDF_other df hd.1 c hd.2 h.1]

theorem fillColInDF_nonmissing (df : DF) (c nm : String) (v : Cell) (vals : List Cell)
    (hWF : df.WF) (hnd : df.index.Nodup) (hg : df.getCol nm = some vals) :
    ∃ vals', (fillColInDF df c v).getCol nm = some vals' ∧
      ∀ i x, vals.get? i = some (some x) → vals'.get? i = some (some x) := by
  by_cases hc : nm = c
  · subst hc
    refine ⟨setByLabels df.index vals (missingLabels df.index vals) v,
      getCol_fillColInDF_self df nm v vals hg, ?_⟩
    intro i x hi
    obtain ⟨col, hcol, hname, hvals⟩ := getCol_eq_some_mem df nm vals hg
    have hlen : vals.length = df.index.length := by rw [← hvals]; exact hWF col hcol
    exact fill_nonmissing_cell df.index vals v i x hlen hnd hi
  · exact ⟨vals, by rw [getCol_fillColInDF_other df c nm v hc]; exact hg,
      fun i x hi => hi⟩

theorem applyPlan_nonmissing (p : List (String × Cell)) (df : DF) (nm : String)
    (vals : List Cell) (hWF : df.WF) (hnd : df.index.Nodup)
    (hg : df.getCol nm = some vals) :
    ∃ vals', (applyPlan df p).getCol nm = some vals' ∧
      ∀ i x, vals.get? i = some (some x) → vals'.get? i = some (some x) := by
  induction p generalizing df vals with
  | nil => exact ⟨vals, hg, fun i x hi => hi⟩
  | cons hd tl ih =>
    obtain ⟨vals₁, hg₁, hpres₁⟩ :=
      fillColInDF_nonmissing df hd.1 nm hd.2 vals hWF hnd hg
    have hWF₁ : (fillColInDF df hd.1 hd.2).WF := fillColInDF_WF df hd.1 hd.2 hWF
    have hnd₁ : (fillColInDF df hd.1 hd.2).index.Nodup := by
      rw [fillColInDF_index]; exact hnd
    obtain ⟨vals₂, hg₂, hpres₂⟩ := ih (fillColInDF df hd.1 hd.2) vals₁ hWF₁ hnd₁ hg₁
    refine ⟨vals₂, ?_, fun i x hi => hpres₂ i x (hpres₁ i x hi)⟩
    rw [show hd = (hd.1, hd.2) from rfl, applyPlan_cons]
    exact hg₂

/-! Structure of the train-side plan. -/

theorem numPlanLoop_keys (ni : String) (cs : List String) (tr : DF) :
    (numPlanLoop ni cs tr).2.map Prod.fst = cs := by
  induction cs generalizing tr with
  | nil => rfl
  | cons c rest ih => simp [numPlanLoop, ih]

theorem numPlanLoop_append (ni : String) (l₁ l₂ : List String) (tr : DF) :
    numPlanLoop ni (l₁ ++ l₂) tr =
      ((numPlanLoop ni l₂ (numPlanLoop ni l₁ tr).1).1,
        (numPlanLoop ni l₁ tr).2 ++ (numPlanLoop ni l₂ (numPlanLoop ni l₁ tr).1).2) := by
  induction l₁ generalizing tr with
  | nil => simp [numPlanLoop]
  | cons c rest ih => simp [numPlanLoop, ih]

theorem catPlanLoop_keys (cs : List String) (tr : DF) (r : DF × List (String × Cell))
    (h : catPlanLoop cs tr = some r) : r.2.map Prod.fst = cs := by
  induction cs generalizing tr r with
  | nil =>
    unfold catPlanLoop at h
    rw [← Option.some_inj.1 h]
    rfl
  | cons c rest ih =>
    unfold catPlanLoop at h
    cases hm : seriesMode ((tr.getCol c).getD []) with
    | none => rw [hm] at h; exact Option.noConfusion h
    | some m =>
      rw [hm] at h
      simp only at h
      cases hr : catPlanLoop rest (fillColInDF tr c (some m)) with
      | none => rw [hr] at h; exact Option.noConfusion h
      | some r₂ =>
        rw [hr] at h
        simp only [Option.map_some', Option.some_inj] at h
        rw [← h]
        simp only [List.map_cons]
        rw [ih _ _ hr]

theorem catPlanLoop_append (l₁ l₂ : List String) (tr : DF) :
    catPlanLoop (l₁ ++ l₂) tr =
      (catPlanLoop l₁ tr).bind (fun r₁ =>
        (catPlanLoop l₂ r₁.1).map (fun r₂ => (r₂.1, r₁.2 ++ r₂.2))) := by
  induction l₁ generalizing tr with
  | nil =>
    simp only [List.nil_append, catPlanLoop]
    cases h : catPlanLoop l₂ tr with
    | none => simp [h]
    | some r => simp [h]
  | cons c rest ih =>
    simp only [List.cons_append, catPlanLoop]
    cases hm : seriesMode ((tr.getCol c).getD []) with
    | none => simp
    | some m =>
      simp only [List.append_eq]
      rw [ih]
      cases hr : catPlanLoop rest (fillColInDF tr c (some m)) with
      | none => simp [hr]
      | some r₁ =>
        simp only [hr, Option.some_bind, Option.map_some']
        cases h2 : catPlanLoop l₂ r₁.1 with
        | none => simp [h2]
        | some r₂ => simp [h2]

theorem numPlanLoop_fst (ni : String) (cs : List String) (tr : DF) :
    (numPlanLoop ni cs tr).1 = applyPlan tr (numPlanLoop ni cs tr).2 := by
  induction cs generalizing tr with
  | nil => rfl
  | cons c rest ih => simp [numPlanLoop, applyPlan_cons, ih]

theorem catPlanLoop_fst (cs : List String) (tr : DF) (r : DF × List (String × Cell))
    (h : catPlanLoop cs tr = some r) : r.1 = applyPlan tr r.2 := by
  induction cs generalizing tr r with
  | nil =>
    unfold catPlanLoop at h
    rw [← Option.some_inj.1 h]
    rfl
  | cons c rest ih =>
    unfold catPlanLoop at h
    cases hm : seriesMode ((tr.getCol c).getD []) with
    | none => rw [hm] at h; exact Option.noConfusion h
    | some m =>
      rw [hm] at h
      simp only at h
      cases hr : catPlanLoop rest (fillColInDF tr c (some m)) with
      | none => rw [hr] at h; exact Option.noConfusion h
      | some r₂ =>
        rw [hr] at h
        simp only [Option.map_some', Option.some_inj] at h
        rw [← h]
        simp only [applyPlan_cons]
        exact ih _ _ hr

/-- Characterization of a successful `fill_missing` call: the validation
passed, both keys were present, the categorical loop did not raise, the
returned train frame is the train-side plan result, and the returned test
frame is the input test frame with the train-derived plan applied. -/
theorem fillMissing_ok (tr te : DF) (cd : ColDict) (ni ci : String) (a b : DF)
    (h : fillMissing tr te cd ni ci = .ok (a, b)) :
    fillCheck tr te cd ni ci = none ∧
    ∃ nums cats r,
      lookupKey cd "numeric" = some nums ∧
      lookupKey cd "categorical" = some cats ∧
      catPlanLoop cats (numPlanLoop ni nums tr).1 = some r ∧
      a = r.1 ∧
      b = applyPlan te ((numPlanLoop ni nums tr).2 ++ r.2) := by
  unfold fillMissing at h
  cases hchk : fillCheck tr te cd ni ci with
  | some m => rw [hchk] at h; exact Except.noConfusion h
  | none =>
    rw [hchk] at h
    cases hn : lookupKey cd "numeric" with
    | none => rw [hn] at h; exact Except.noConfusion h
    | some nums =>
      rw [hn] at h
      cases hc : lookupKey cd "categorical" with
      | none => rw [hc] at h; exact Except.noConfusion h
      | some cats =>
        rw [hc] at h
        simp only at h
        rw [numLoop_eq_plan, catLoop_eq_plan] at h
        cases hr : catPlanLoop cats (numPlanLoop ni nums tr).1 with
        | none => rw [hr] at h; exact Except.noConfusion h
        | some r =>
          rw [hr] at h
          simp only [Except.ok.injEq, Prod.mk.injEq] at h
          refine ⟨rfl, nums, cats, r, rfl, rfl, hr, h.1.symm, ?_⟩
          rw [← h.2, applyPlan_append]

/-! Validation predicates and their correspondence with the check chains. -/

theorem fillCheck_none_iff (tr te : DF) (cd : ColDict) (ni ci : String) :
    fillCheck tr te cd ni ci = none ↔ fillValid tr te cd ni ci := by
  unfold fillCheck fillValid
  split_ifs with h1 h2 h3 h4 h5 h6 <;> (simp_all; try tauto)

theorem fillCheck_some_violation (tr te : DF) (cd : ColDict) (ni ci : String)
    (msg : String) (h : fillCheck tr te cd ni ci = some msg) :
    fillViolation tr te cd ni ci msg := by
  unfold fillCheck at h
  unfold fillViolation
  split_ifs at h with h1 h2 h3 h4 h5 h6 <;>
    simp only [Option.some_inj] at h <;> subst h <;> simp_all

theorem fillMissing_error_of_check (tr te : DF) (cd : ColDict) (ni ci : String)
    (msg : String) (h : fillCheck tr te cd ni ci = some msg) :
    fillMissing tr te cd ni ci = .error msg := by
  unfold fillMissing
  rw [h]

theorem transCheck_none_iff (tr te : DF) (cd : ColDict) (ct nt : String) :
    transCheck tr te cd ct nt = none ↔ transValid tr te cd ct nt := by
  unfold transCheck transValid
  split_ifs with h1 h2 h3 h4 h5 h6 h7 h8 <;> (simp_all; try tauto)

theorem transCheck_some_violation (tr te : DF) (cd : ColDict) (ct nt : String)
    (msg : String) (h : transCheck tr te cd ct nt = some msg) :
    transViolation tr te cd ct nt msg := by
  unfold transCheck at h
  unfold transViolation
  split_ifs at h with h1 h2 h3 h4 h5 h6 h7 h8 <;>
    simp only [Option.some_inj] at h <;> subst h <;> simp_all

theorem transformColumns_error_of_check (tr te : DF) (cd : ColDict) (ct nt : String)
    (msg : String) (h : transCheck tr te cd ct nt = some msg) :
    transformColumns tr te cd ct nt = .error msg := by
  unfold transformColumns
  rw [h]

/-! Helpers for the per-column claims. -/

theorem lookupKey_mem (cd : ColDict) (k : String) (v : List String)
    (h : lookupKey cd k = some v) : (k, v) ∈ cd := by
  induction cd with
  | nil => exact Option.noConfusion h
  | cons kv rest ih =>
    obtain ⟨a, b⟩ := kv
    unfold lookupKey at h
    by_cases hk : a = k
    · rw [if_pos (show (a, b).1 = k from hk)] at h
      subst hk
      obtain rfl : b = v := Option.some_inj.1 h
      exact List.mem_cons_self _ _
    · rw [if_neg (show ¬ (a, b).1 = k from hk)] at h
      exact List.mem_cons_of_mem (a, b) (ih h)

theorem count_one_split (l : List String) (c : String) (h : l.count c = 1) :
    ∃ l₁ l₂, l = l₁ ++ c :: l₂ ∧ c ∉ l₁ ∧ c ∉ l₂ := by
  have hmem : c ∈ l := by
    by_contra hn
    rw [List.count_eq_zero.2 hn] at h
    exact one_ne_zero h.symm
  obtain ⟨l₁, l₂, rfl⟩ := List.append_of_mem hmem
  rw [List.count_append, List.count_cons_self] at h
  exact ⟨l₁, l₂, rfl, List.count_eq_zero.1 (by omega), List.count_eq_zero.1 (by omega)⟩

/-- The column named in the middle of a plan, with no other plan entry of the
same name, ends up filled exactly once, at that entry's value. -/
theorem applyPlan_getCol_middle (df : DF) (p₁ p₂ : List (String × Cell))
    (c : String) (v : Cell) (vals : List Cell)
    (h1 : c ∉ p₁.map Prod.fst) (h2 : c ∉ p₂.map Prod.fst)
    (hg : df.getCol c = some vals) :
    (applyPlan df (p₁ ++ (c, v) :: p₂)).getCol c =
      some (setByLabels df.index vals (missingLabels df.index vals) v) := by
  rw [applyPlan_append, applyPlan_cons, applyPlan_getCol_not_mem _ _ _ h2]
  have hmid : (applyPlan df p₁).getCol c = some vals := by
    rw [applyPlan_getCol_not_mem _ _ _ h1]
    exact hg
  rw [getCol_fillColInDF_self _ _ _ _ hmid, applyPlan_index]

theorem foldl_min_spec (xs : List ℚ) (a m : ℚ)
    (h : xs.foldl
      (fun acc v =>
        match acc with
        | none => some v
        | some m0 => some (min m0 v)) (some a) = some m) :
    m ≤ a ∧ (∀ x ∈ xs, m ≤ x) ∧ (m = a ∨ m ∈ xs) := by
  induction xs generalizing a with
  | nil =>
    simp only [List.foldl_nil, Option.some_inj] at h
    simp [h]
  | cons x rest ih =>
    simp only [List.foldl_cons] at h
    obtain ⟨h1, h2, h3⟩ := ih (min a x) h
    refine ⟨le_trans h1 (min_le_left a x), ?_, ?_⟩
    · intro y hy
      rcases List.mem_cons.1 hy with hy | hy
      · rw [hy]; exact le_trans h1 (min_le_right a x)
      · exact h2 y hy
    · rcases h3 with h3 | h3
      · rcases min_choice a x with hm | hm
        · exact Or.inl (h3.trans hm)
        · exact Or.inr (List.mem_cons.2 (Or.inl (h3.trans hm)))
      · exact Or.inr (List.mem_cons.2 (Or.inr h3))

theorem listMin_spec (xs : List ℚ) (m : ℚ) (h : listMin xs = some m) :
    m ∈ xs ∧ ∀ x ∈ xs, m ≤ x := by
  cases xs with
  | nil => exact Option.noConfusion h
  | cons x rest =>
    unfold listMin at h
    simp only [List.foldl_cons] at h
    obtain ⟨h1, h2, h3⟩ := foldl_min_spec rest x m h
    refine ⟨?_, ?_⟩
    · rcases h3 with h3 | h3
      · exact List.mem_cons.2 (Or.inl h3)
      · exact List.mem_cons.2 (Or.inr h3)
    · intro y hy
      rcases List.mem_cons.1 hy with hy | hy
      · rw [hy]; exact h1
      · exact h2 y hy

theorem foldl_max_init_le (l : List ℚ) (g : ℚ → ℕ) (acc : ℕ) :
    acc ≤ l.foldl (fun a w => max a (g w)) acc := by
  induction l generalizing acc with
  | nil => exact le_refl acc
  | cons w rest ih =>
    simp only [List.foldl_cons]
    exact le_trans (le_max_left acc (g w)) (ih (max acc (g w)))

theorem count_le_foldl_max (l xs : List ℚ) (v : ℚ) (acc : ℕ) (h : v ∈ l) :
    countQ v xs ≤ l.foldl (fun a w => max a (countQ w xs)) acc := by
  induction l generalizing acc with
  | nil => exact absurd h (List.not_mem_nil v)
  | cons w rest ih =>
    simp only [List.foldl_cons]
    rcases List.mem_cons.1 h with hv | hv
    · subst hv
      exact le_trans (le_max_right acc (countQ v xs))
        (foldl_max_init_le rest _ (max acc (countQ v xs)))
    · exact ih _ hv

theorem count_le_maxCount (xs : List ℚ) (v : ℚ) (h : v ∈ xs) :
    countQ v xs ≤ maxCount xs :=
  count_le_foldl_max xs xs v 0 h

/-- Characterization of the mode head: it occurs in the non-missing values,
has maximal multiplicity, and is least among the values of maximal
multiplicity — the lowest-wins tie-break. -/
theorem seriesMode_spec (vals : List Cell) (m : ℚ) (h : seriesMode vals = some m) :
    m ∈ vals.filterMap id ∧
    (∀ w ∈ vals.filterMap id, countQ w (vals.filterMap id) ≤ countQ m (vals.filterMap id)) ∧
    (∀ w ∈ vals.filterMap id, countQ w (vals.filterMap id) = countQ m (vals.filterMap id) →
      m ≤ w) := by
  unfold seriesMode at h
  obtain ⟨hmem, hle⟩ := listMin_spec _ _ h
  have hm := List.mem_filter.1 hmem
  have hcnt : countQ m (vals.filterMap id) = maxCount (vals.filterMap id) := by
    have := hm.2
    rwa [beq_iff_eq] at this
  refine ⟨hm.1, ?_, ?_⟩
  · intro w hw
    rw [hcnt]
    exact count_le_maxCount _ w hw
  · intro w hw heq
    exact hle w (List.mem_filter.2 ⟨hw, by rw [beq_iff_eq, heq, hcnt]⟩)

/-! Claim theorems. -/

/-- C1: no data leakage.  For two `fill_missing` calls with the same
reference frame and configuration and arbitrary (different) target frames,
both succeeding, the returned reference frames coincide and both returned
target frames are the input target frames with the same fill plan applied —
`fillPlanOf tr cd ni` is computed from the reference frame, the column
dictionary and the numeric method only, so the fill value applied per column
is identical and never derives from the target. -/
theorem c1_no_leakage (tr te te' : DF) (cd : ColDict) (ni ci : String)
    (a b a' b' : DF)
    (h : fillMissing tr te cd ni ci = .ok (a, b))
    (h' : fillMissing tr te' cd ni ci = .ok (a', b')) :
    a = a' ∧
    ∃ plan, fillPlanOf tr cd ni = some plan ∧
      b = applyPlan te plan ∧ b' = applyPlan te' plan := by
  obtain ⟨hchk, nums, cats, r, hn, hc, hr, ha, hb⟩ := fillMissing_ok tr te cd ni ci a b h
  obtain ⟨hchk', nums', cats', r', hn', hc', hr', ha', hb'⟩ :=
    fillMissing_ok tr te' cd ni ci a' b' h'
  obtain rfl : nums = nums' := Option.some_inj.1 (hn.symm.trans hn')
  obtain rfl : cats = cats' := Option.some_inj.1 (hc.symm.trans hc')
  obtain rfl : r = r' := Option.some_inj.1 (hr.symm.trans hr')
  refine ⟨ha.trans ha'.symm, (numPlanLoop ni nums tr).2 ++ r.2, ?_, hb, hb'⟩
  unfold fillPlanOf
  rw [hn, hc]
  simp only [hr, Option.map_some']

/-- Witness for C1: a concrete reference frame with two different target
frames; the shared plan fills the single numeric column with its reference
mean 1. -/
theorem c1_no_leakage_witness :
    ⟨[0, 1], false, [⟨"a", true, [some 1, some 1]⟩]⟩ =
      (⟨[0, 1], false, [⟨"a", true, [some 1, some 1]⟩]⟩ : DF) ∧
    ∃ plan,
      fillPlanOf ⟨[0, 1], false, [⟨"a", true, [some 1, none]⟩]⟩
        [("numeric", ["a"]), ("categorical", [])] "mean" = some plan ∧
      (⟨[0], false, [⟨"a", true, [some 1]⟩]⟩ : DF) =
        applyPlan ⟨[0], false, [⟨"a", true, [none]⟩]⟩ plan ∧
      (⟨[0], false, [⟨"a", true, [some 9]⟩]⟩ : DF) =
        applyPlan ⟨[0], false, [⟨"a", true, [some 9]⟩]⟩ plan := by
  refine c1_no_leakage ⟨[0, 1], false, [⟨"a", true, [some 1, none]⟩]⟩
    ⟨[0], false, [⟨"a", true, [none]⟩]⟩ ⟨[0], false, [⟨"a", true, [some 9]⟩]⟩
    [("numeric", ["a"]), ("categorical", [])] "mean" "mode" _ _ _ _ ?_ ?_
  · simp [fillMissing, fillCheck, keysOf, DF.colNames, lookupKey, numLoop, numStep,
      numericColImp, meanList, fillColInDF, DF.getCol, findCol, missingLabels,
      setByLabels, catLoop]
  · simp [fillMissing, fillCheck, keysOf, DF.colNames, lookupKey, numLoop, numStep,
      numericColImp, meanList, fillColInDF, DF.getCol, findCol, missingLabels,
      setByLabels, catLoop]

/-- C2: eager validation with atomic failure, for both functions.  Whenever
any statable precondition is violated, the call returns an error whose
message names a violated assertion, the heap — and with it both input
datasets — is unchanged, and no partial result is produced.  (The
`isinstance` checks are enforced by the types of the embedding; in the
source all assertions run before any transformation code.) -/
theorem c2_validation_eager_atomic :
    (∀ (h : Heap) (i j : ℕ) (tr te : DF) (cd : ColDict) (ni ci : String),
      h.get? i = some (.q tr) → h.get? j = some (.q te) →
      ¬ fillValid tr te cd ni ci →
      ∃ msg, fillMissingRef h i j cd ni ci = (h, .error msg) ∧
        fillViolation tr te cd ni ci msg) ∧
    (∀ (h : Heap) (i j : ℕ) (tr te : DF) (cd : ColDict) (ct nt : String),
      h.get? i = some (.q tr) → h.get? j = some (.q te) →
      ¬ transValid tr te cd ct nt →
      ∃ msg, transformColumnsRef h i j cd ct nt = (h, .error msg) ∧
        transViolation tr te cd ct nt msg) := by
  constructor
  · intro h i j tr te cd ni ci hi hj hv
    obtain ⟨msg, hmsg⟩ : ∃ m, fillCheck tr te cd ni ci = some m := by
      cases hc : fillCheck tr te cd ni ci with
      | none => exact absurd ((fillCheck_none_iff tr te cd ni ci).1 hc) hv
      | some m => exact ⟨m, rfl⟩
    refine ⟨msg, ?_, fillCheck_some_violation tr te cd ni ci msg hmsg⟩
    unfold fillMissingRef
    rw [hi, hj]
    simp only
    rw [fillMissing_error_of_check tr te cd ni ci msg hmsg]
  · intro h i j tr te cd ct nt hi hj hv
    obtain ⟨msg, hmsg⟩ : ∃ m, transCheck tr te cd ct nt = some m := by
      cases hc : transCheck tr te cd ct nt with
      | none => exact absurd ((transCheck_none_iff tr te cd ct nt).1 hc) hv
      | some m => exact ⟨m, rfl⟩
    refine ⟨msg, ?_, transCheck_some_violation tr te cd ct nt msg hmsg⟩
    unfold transformColumnsRef
    rw [hi, hj]
    simp only
    rw [transformColumns_error_of_check tr te cd ct nt msg hmsg]

/-- Witness for C2: an invalid numeric imputation method and an invalid
categorical transform method each fail eagerly, leaving the heap unchanged. -/
theorem c2_validation_eager_atomic_witness :
    (∃ msg,
      fillMissingRef [Obj.q ⟨[0], false, [⟨"a", true, [some 1]⟩]⟩,
          Obj.q ⟨[0], false, [⟨"a", true, [some 1]⟩]⟩] 0 1
        [("numeric", ["a"]), ("categorical", [])] "max" "mode" =
        ([Obj.q ⟨[0], false, [⟨"a", true, [some 1]⟩]⟩,
          Obj.q ⟨[0], false, [⟨"a", true, [some 1]⟩]⟩], .error msg) ∧
      fillViolation ⟨[0], false, [⟨"a", true, [some 1]⟩]⟩
        ⟨[0], false, [⟨"a", true, [some 1]⟩]⟩
        [("numeric", ["a"]), ("categorical", [])] "max" "mode" msg) ∧
    (∃ msg,
      transformColumnsRef [Obj.q ⟨[0], false, [⟨"a", true, [some 1]⟩]⟩,
          Obj.q ⟨[0], false, [⟨"a", true, [some 1]⟩]⟩] 0 1
        [("numeric", ["a"]), ("categorical", [])] "bad" "standard_scaling" =
        ([Obj.q ⟨[0], false, [⟨"a", true, [some 1]⟩]⟩,
          Obj.q ⟨[0], false, [⟨"a", true, [some 1]⟩]⟩], .error msg) ∧
      transViolation ⟨[0], false, [⟨"a", true, [some 1]⟩]⟩
        ⟨[0], false, [⟨"a", true, [some 1]⟩]⟩
        [("numeric", ["a"]), ("categorical", [])] "bad" "standard_scaling" msg) :=
  ⟨c2_validation_eager_atomic.1 _ 0 1 _ _ _ "max" "mode" rfl rfl
      (by unfold fillValid; decide),
   c2_validation_eager_atomic.2 _ 0 1 _ _ _ "bad" "standard_scaling" rfl rfl
      (by unfold transValid; decide)⟩

/-- Decomposition of the numeric plan at the unique occurrence of a column:
the fill value recorded for it is computed from the original reference
column, because the preceding loop iterations only touch other columns. -/
theorem numPlanLoop_middle (ni : String) (l₁ l₂ : List String) (c : String)
    (tr : DF) (vals : List Cell) (h1 : c ∉ l₁) (hg : tr.getCol c = some vals) :
    ∃ p₁ p₂, (numPlanLoop ni (l₁ ++ c :: l₂) tr).2 =
        p₁ ++ (c, numericColImp ni vals) :: p₂ ∧
      p₁.map Prod.fst = l₁ ∧ p₂.map Prod.fst = l₂ := by
  have hget : (numPlanLoop ni l₁ tr).1.getCol c = some vals := by
    rw [numPlanLoop_fst, applyPlan_getCol_not_mem _ _ _ (by rw [numPlanLoop_keys]; exact h1)]
    exact hg
  refine ⟨(numPlanLoop ni l₁ tr).2,
    (numPlanLoop ni l₂ (fillColInDF (numPlanLoop ni l₁ tr).1 c
      (numericColImp ni vals))).2, ?_, numPlanLoop_keys ni l₁ tr, numPlanLoop_keys ni l₂ _⟩
  rw [numPlanLoop_append]
  simp only [numPlanLoop, hget, Option.getD_some, List.cons.injEq]

/-- Decomposition of the categorical plan at the unique occurrence of a
column: on success the recorded fill value is the mode of the original
reference column. -/
theorem catPlanLoop_middle (l₁ l₂ : List String) (c : String) (tr : DF)
    (r : DF × List (String × Cell)) (vals : List Cell)
    (h1 : c ∉ l₁) (hg : tr.getCol c = some vals)
    (hsucc : catPlanLoop (l₁ ++ c :: l₂) tr = some r) :
    ∃ m p₁ p₂, seriesMode vals = some m ∧
      r.2 = p₁ ++ (c, some m) :: p₂ ∧ p₁.map Prod.fst = l₁ ∧ p₂.map Prod.fst = l₂ := by
  rw [catPlanLoop_append] at hsucc
  cases hr₁ : catPlanLoop l₁ tr with
  | none => rw [hr₁] at hsucc; exact Option.noConfusion hsucc
  | some r₁ =>
    rw [hr₁] at hsucc
    simp only [Option.some_bind] at hsucc
    have hget : r₁.1.getCol c = some vals := by
      rw [catPlanLoop_fst l₁ tr r₁ hr₁,
        applyPlan_getCol_not_mem _ _ _ (by rw [catPlanLoop_keys l₁ tr r₁ hr₁]; exact h1)]
      exact hg
    unfold catPlanLoop at hsucc
    rw [hget] at hsucc
    simp only [Option.getD_some] at hsucc
    cases hm : seriesMode vals with
    | none => rw [hm] at hsucc; exact Option.noConfusion hsucc
    | some m =>
      rw [hm] at hsucc
      simp only at hsucc
      cases hr₂ : catPlanLoop l₂ (fillColInDF r₁.1 c (some m)) with
      | none => rw [hr₂] at hsucc; exact Option.noConfusion hsucc
      | some r₂ =>
        rw [hr₂] at hsucc
        simp only [Option.map_some', Option.some_inj] at hsucc
        refine ⟨m, r₁.2, r₂.2, rfl, ?_, catPlanLoop_keys l₁ tr r₁ hr₁,
          catPlanLoop_keys l₂ _ r₂ hr₂⟩
        rw [← hsucc]

/-- C3: numeric imputation.  Under a successful call, for a column listed
once under the numeric key and not under the categorical key, the fill value
is `numericColImp ni vals` — the mean (method `mean`) or median (method
`median`) of the reference column's non-missing values — and that single
scalar replaces every missing entry of the column in both the reference and
the target output, the target fill using the reference-derived value. -/
theorem c3_numeric_fill (tr te : DF) (cd : ColDict) (ni ci : String) (a b : DF)
    (c : String) (nums cats : List String) (vals tvals : List Cell)
    (h : fillMissing tr te cd ni ci = .ok (a, b))
    (hn : lookupKey cd "numeric" = some nums)
    (hc : lookupKey cd "categorical" = some cats)
    (hcount : nums.count c = 1) (hnotcat : c ∉ cats)
    (hgtr : tr.getCol c = some vals) (hgte : te.getCol c = some tvals)
    (hlentr : vals.length = tr.index.length) (hlente : tvals.length = te.index.length) :
    a.getCol c = some (setByLabels tr.index vals (missingLabels tr.index vals)
      (numericColImp ni vals)) ∧
    b.getCol c = some (setByLabels te.index tvals (missingLabels te.index tvals)
      (numericColImp ni vals)) ∧
    (∀ i, vals.get? i = some none →
      (setByLabels tr.index vals (missingLabels tr.index vals)
        (numericColImp ni vals)).get? i = some (numericColImp ni vals)) ∧
    (∀ i, tvals.get? i = some none →
      (setByLabels te.index tvals (missingLabels te.index tvals)
        (numericColImp ni vals)).get? i = some (numericColImp ni vals)) := by
  obtain ⟨hchk, nums₀, cats₀, r, hn₀, hc₀, hr, ha, hb⟩ :=
    fillMissing_ok tr te cd ni ci a b h
  have hnn : nums = nums₀ := Option.some_inj.1 (hn.symm.trans hn₀)
  subst hnn
  have hcc : cats = cats₀ := Option.some_inj.1 (hc.symm.trans hc₀)
  subst hcc
  obtain ⟨l₁, l₂, rfl, hl₁, hl₂⟩ := count_one_split nums c hcount
  obtain ⟨p₁, p₂, hplan, hk₁, hk₂⟩ := numPlanLoop_middle ni l₁ l₂ c tr vals hl₁ hgtr
  have hkr : r.2.map Prod.fst = cats := catPlanLoop_keys _ _ _ hr
  have haP : a = applyPlan tr ((numPlanLoop ni (l₁ ++ c :: l₂) tr).2 ++ r.2) := by
    rw [ha, catPlanLoop_fst _ _ _ hr, numPlanLoop_fst, ← applyPlan_append]
  have hshape : (numPlanLoop ni (l₁ ++ c :: l₂) tr).2 ++ r.2 =
      p₁ ++ (c, numericColImp ni vals) :: (p₂ ++ r.2) := by
    rw [hplan, List.append_assoc, List.cons_append]
  have hnot₂ : c ∉ (p₂ ++ r.2).map Prod.fst := by
    rw [List.map_append, hk₂, hkr]
    intro hmem
    rcases List.mem_append.1 hmem with hmem | hmem
    · exact hl₂ hmem
    · exact hnotcat hmem
  have hnot₁ : c ∉ p₁.map Prod.fst := by rw [hk₁]; exact hl₁
  refine ⟨?_, ?_, ?_, ?_⟩
  · rw [haP, hshape]
    exact applyPlan_getCol_middle tr p₁ (p₂ ++ r.2) c _ vals hnot₁ hnot₂ hgtr
  · rw [hb, hshape]
    exact applyPlan_getCol_middle te p₁ (p₂ ++ r.2) c _ tvals hnot₁ hnot₂ hgte
  · intro i hi
    exact fill_missing_cell tr.index vals _ i hlentr hi
  · intro i hi
    exact fill_missing_cell te.index tvals _ i hlente hi

/-- Witness for C3: the specification's reference column `[1, 2, NaN, 4]`;
the computed fill value is `7/3` for method `mean` and `2` for `median`,
and it lands in every missing entry of both frames. -/
theorem c3_numeric_fill_witness :
    numericColImp "mean" [some 1, some 2, none, some 4] = some (7 / 3) ∧
    numericColImp "median" [some 1, some 2, none, some 4] = some 2 ∧
    (∃ a b : DF,
      fillMissing ⟨[0, 1, 2, 3], false, [⟨"a", true, [some 1, some 2, none, some 4]⟩]⟩
        ⟨[0], false, [⟨"a", true, [none]⟩]⟩
        [("numeric", ["a"]), ("categorical", [])] "mean" "mode" = .ok (a, b) ∧
      a.getCol "a" = some (setByLabels [0, 1, 2, 3] [some 1, some 2, none, some 4]
        (missingLabels [0, 1, 2, 3] [some 1, some 2, none, some 4])
        (numericColImp "mean" [some 1, some 2, none, some 4])) ∧
      b.getCol "a" = some (setByLabels [0] [none] (missingLabels [0] [none])
        (numericColImp "mean" [some 1, some 2, none, some 4]))) := by
  refine ⟨?_, ?_, ?_⟩
  · simp [numericColImp, meanList]
    norm_num
  · simp [numericColImp, medianList, List.insertionSort, List.orderedInsert]
  · have h : fillMissing
        ⟨[0, 1, 2, 3], false, [⟨"a", true, [some 1, some 2, none, some 4]⟩]⟩
        ⟨[0], false, [⟨"a", true, [none]⟩]⟩
        [("numeric", ["a"]), ("categorical", [])] "mean" "mode" =
        .ok (⟨[0, 1, 2, 3], false,
              [⟨"a", true, [some 1, some 2, some (7/3), some 4]⟩]⟩,
             ⟨[0], false, [⟨"a", true, [some (7/3)]⟩]⟩) := by
      simp [fillMissing, fillCheck, keysOf, DF.colNames, lookupKey, numLoop, numStep,
        numericColImp, meanList, fillColInDF, DF.getCol, findCol, missingLabels,
        setByLabels, catLoop]
      norm_num
    refine ⟨_, _, h, ?_⟩
    have := c3_numeric_fill _ _ _ "mean" "mode" _ _ "a" ["a"] []
      [some 1, some 2, none, some 4] [none] h rfl rfl (by decide) (by decide)
      rfl rfl rfl rfl
    exact ⟨this.1, this.2.1⟩

/-- C4: categorical imputation with the lowest-wins tie-break.  Under a
successful call, for a column listed once under the categorical key and not
under the numeric key, the fill value is the mode of the reference column:
it occurs among the non-missing reference values, no value occurs more
often, every value occurring equally often is at least it, and it replaces
every missing entry of the column in both output frames. -/
theorem c4_mode_fill (tr te : DF) (cd : ColDict) (ni ci : String) (a b : DF)
    (c : String) (nums cats : List String) (vals tvals : List Cell)
    (h : fillMissing tr te cd ni ci = .ok (a, b))
    (hn : lookupKey cd "numeric" = some nums)
    (hc : lookupKey cd "categorical" = some cats)
    (hcount : cats.count c = 1) (hnotnum : c ∉ nums)
    (hgtr : tr.getCol c = some vals) (hgte : te.getCol c = some tvals)
    (hlentr : vals.length = tr.index.length) (hlente : tvals.length = te.index.length) :
    ∃ m : ℚ, seriesMode vals = some m ∧
      m ∈ vals.filterMap id ∧
      (∀ w ∈ vals.filterMap id, countQ w (vals.filterMap id) ≤ countQ m (vals.filterMap id)) ∧
      (∀ w ∈ vals.filterMap id,
        countQ w (vals.filterMap id) = countQ m (vals.filterMap id) → m ≤ w) ∧
      a.getCol c = some (setByLabels tr.index vals (missingLabels tr.index vals) (some m)) ∧
      b.getCol c = some (setByLabels te.index tvals (missingLabels te.index tvals) (some m)) ∧
      (∀ i, vals.get? i = some none →
        (setByLabels tr.index vals (missingLabels tr.index vals) (some m)).get? i =
          some (some m)) ∧
      (∀ i, tvals.get? i = some none →
        (setByLabels te.index tvals (missingLabels te.index tvals) (some m)).get? i =
          some (some m)) := by
  obtain ⟨hchk, nums₀, cats₀, r, hn₀, hc₀, hr, ha, hb⟩ :=
    fillMissing_ok tr te cd ni ci a b h
  have hnn : nums = nums₀ := Option.some_inj.1 (hn.symm.trans hn₀)
  subst hnn
  have hcc : cats = cats₀ := Option.some_inj.1 (hc.symm.trans hc₀)
  subst hcc
  obtain ⟨l₁, l₂, rfl, hl₁, hl₂⟩ := count_one_split cats c hcount
  have hget : (numPlanLoop ni nums tr).1.getCol c = some vals := by
    rw [numPlanLoop_fst,
      applyPlan_getCol_not_mem _ _ _ (by rw [numPlanLoop_keys]; exact hnotnum)]
    exact hgtr
  obtain ⟨m, p₁, p₂, hm, hr2, hk₁, hk₂⟩ :=
    catPlanLoop_middle l₁ l₂ c (numPlanLoop ni nums tr).1 r vals hl₁ hget hr
  have haP : a = applyPlan tr ((numPlanLoop ni nums tr).2 ++ r.2) := by
    rw [ha, catPlanLoop_fst _ _ _ hr, numPlanLoop_fst, ← applyPlan_append]
  have hshape : (numPlanLoop ni nums tr).2 ++ r.2 =
      ((numPlanLoop ni nums tr).2 ++ p₁) ++ (c, some m) :: p₂ := by
    rw [hr2, List.append_assoc]
  have hnot₁ : c ∉ ((numPlanLoop ni nums tr).2 ++ p₁).map Prod.fst := by
    rw [List.map_append, numPlanLoop_keys, hk₁]
    intro hmem
    rcases List.mem_append.1 hmem with hmem | hmem
    · exact hnotnum hmem
    · exact hl₁ hmem
  have hnot₂ : c ∉ p₂.map Prod.fst := by rw [hk₂]; exact hl₂
  obtain ⟨hmem, hmax, htie⟩ := seriesMode_spec vals m hm
  refine ⟨m, hm, hmem, hmax, htie, ?_, ?_, ?_, ?_⟩
  · rw [haP, hshape]
    exact applyPlan_getCol_middle tr _ p₂ c _ vals hnot₁ hnot₂ hgtr
  · rw [hb, hshape]
    exact applyPlan_getCol_middle te _ p₂ c _ tvals hnot₁ hnot₂ hgte
  · intro i hi
    exact fill_missing_cell tr.index vals _ i hlentr hi
  · intro i hi
    exact fill_missing_cell te.index tvals _ i hlente hi

/-- Witness for C4: the specification's tie column `[1, 1, 2, 2]`; the mode
is 1 (lowest value wins the tie) and fills the target's missing entry. -/
theorem c4_mode_fill_witness :
    seriesMode [some 1, some 1, some 2, some 2] = some 1 ∧
    (∃ a b : DF, ∃ m : ℚ,
      fillMissing ⟨[0, 1, 2, 3], false, [⟨"a", true, [some 1, some 1, some 2, some 2]⟩]⟩
        ⟨[0], false, [⟨"a", true, [none]⟩]⟩
        [("numeric", []), ("categorical", ["a"])] "mean" "mode" = .ok (a, b) ∧
      seriesMode [some 1, some 1, some 2, some 2] = some m ∧
      b.getCol "a" = some (setByLabels [0] [none] (missingLabels [0] [none]) (some m))) := by
  have hmode : seriesMode [some 1, some 1, some 2, some 2] = some 1 := by
    simp [seriesMode, listMin, maxCount, countQ, List.filter]
  refine ⟨hmode, ?_⟩
  have h : fillMissing
      ⟨[0, 1, 2, 3], false, [⟨"a", true, [some 1, some 1, some 2, some 2]⟩]⟩
      ⟨[0], false, [⟨"a", true, [none]⟩]⟩
      [("numeric", []), ("categorical", ["a"])] "mean" "mode" =
      .ok (⟨[0, 1, 2, 3], false, [⟨"a", true, [some 1, some 1, some 2, some 2]⟩]⟩,
           ⟨[0], false, [⟨"a", true, [some 1]⟩]⟩) := by
    simp [fillMissing, fillCheck, keysOf, DF.colNames, lookupKey, numLoop, numStep,
      numericColImp, meanList, fillColInDF, DF.getCol, findCol, missingLabels,
      setByLabels, catLoop, seriesMode, listMin, maxCount, countQ, List.filter]
  obtain ⟨m, hm, _, _, _, _, hbc, _, _⟩ := c4_mode_fill _ _ _ "mean" "mode" _ _ "a"
    [] ["a"] [some 1, some 1, some 2, some 2] [none] h rfl rfl (by decide) (by decide)
    rfl rfl rfl rfl
  exact ⟨_, _, m, h, hm, hbc⟩

/-- Characterization of a successful `transform_columns` call: validation
passed, both keys resolved, neither frame is empty, every listed column was
extracted without missing values, every test category was fitted, and the
outputs are the rebuilt frames over the input indexes. -/
theorem transformColumns_ok (tr te : DF) (cd : ColDict) (ct nt : String)
    (a b : DFR) (h : transformColumns tr te cd ct nt = .ok (a, b)) :
    transCheck tr te cd ct nt = none ∧
    ∃ nums cats trN trC teN teC,
      lookupKey cd "numeric" = some nums ∧
      lookupKey cd "categorical" = some cats ∧
      extractCols tr nums = .ok trN ∧
      extractCols tr cats = .ok trC ∧
      extractCols te nums = .ok teN ∧
      extractCols te cats = .ok teC ∧
      ((ct = "onehot_encoding" ∧
        a = ⟨tr.index, scaledCols nt nums trN trN ++ oheColsOf cats trC trC⟩ ∧
        b = ⟨te.index, scaledCols nt nums trN teN ++ oheColsOf cats trC teC⟩) ∨
       (¬ ct = "onehot_encoding" ∧
        a = ⟨tr.index, scaledCols nt nums trN trN ++ ordColsOf cats trC trC⟩ ∧
        b = ⟨te.index, scaledCols nt nums trN teN ++ ordColsOf cats trC teC⟩)) := by
  unfold transformColumns at h
  cases hchk : transCheck tr te cd ct nt with
  | some m => rw [hchk] at h; exact Except.noConfusion h
  | none =>
    rw [hchk] at h
    simp only at h
    cases hn : lookupKey cd "numeric" with
    | none => rw [hn] at h; simp only at h; exact Except.noConfusion h
    | some nums =>
      rw [hn] at h
      cases hc : lookupKey cd "categorical" with
      | none => rw [hc] at h; simp only at h; exact Except.noConfusion h
      | some cats =>
        rw [hc] at h
        simp only at h
        by_cases h0 : tr.index.length = 0 ∨ te.index.length = 0
        · rw [if_pos h0] at h; exact Except.noConfusion h
        · rw [if_neg h0] at h
          cases htrN : extractCols tr nums with
          | error m => rw [htrN] at h; simp only at h; exact Except.noConfusion h
          | ok trN =>
            rw [htrN] at h
            cases htrC : extractCols tr cats with
            | error m => rw [htrC] at h; simp only at h; exact Except.noConfusion h
            | ok trC =>
              rw [htrC] at h
              simp only at h
              cases hteN : extractCols te nums with
              | error m => rw [hteN] at h; simp only at h; exact Except.noConfusion h
              | ok teN =>
                rw [hteN] at h
                cases hteC : extractCols te cats with
                | error m => rw [hteC] at h; simp only at h; exact Except.noConfusion h
                | ok teC =>
                  rw [hteC] at h
                  simp only at h
                  by_cases hknown : ∀ p ∈ trC.zip teC, ∀ x ∈ p.2, x ∈ p.1
                  · rw [if_pos hknown] at h
                    by_cases hct : ct = "onehot_encoding"
                    · rw [if_pos hct] at h
                      simp only [Except.ok.injEq, Prod.mk.injEq] at h
                      exact ⟨rfl, nums, cats, trN, trC, teN, teC, rfl, rfl, htrN,
                        htrC, hteN, hteC, Or.inl ⟨hct, h.1.symm, h.2.symm⟩⟩
                    · rw [if_neg hct] at h
                      simp only [Except.ok.injEq, Prod.mk.injEq] at h
                      exact ⟨rfl, nums, cats, trN, trC, teN, teC, rfl, rfl, htrN,
                        htrC, hteN, hteC, Or.inr ⟨hct, h.1.symm, h.2.symm⟩⟩
                  · rw [if_neg hknown] at h
                    exact Except.noConfusion h

/-- C6: row-index preservation.  Both functions return frames whose row
index equals that of the corresponding input frame: `fill_missing` only
assigns into existing rows, and `transform_columns` rebuilds both outputs
over the input indexes. -/
theorem c6_row_index_preserved :
    (∀ (tr te : DF) (cd : ColDict) (ni ci : String) (a b : DF),
      fillMissing tr te cd ni ci = .ok (a, b) →
      a.index = tr.index ∧ b.index = te.index) ∧
    (∀ (tr te : DF) (cd : ColDict) (ct nt : String) (a b : DFR),
      transformColumns tr te cd ct nt = .ok (a, b) →
      a.index = tr.index ∧ b.index = te.index) := by
  constructor
  · intro tr te cd ni ci a b h
    obtain ⟨hchk, nums, cats, r, hn, hc, hr, ha, hb⟩ := fillMissing_ok tr te cd ni ci a b h
    constructor
    · rw [ha, catPlanLoop_fst _ _ _ hr, numPlanLoop_fst, ← applyPlan_append,
        applyPlan_index]
    · rw [hb, applyPlan_index]
  · intro tr te cd ct nt a b h
    obtain ⟨hchk, nums, cats, trN, trC, teN, teC, hn, hc, h1, h2, h3, h4, hbr⟩ :=
      transformColumns_ok tr te cd ct nt a b h
    rcases hbr with ⟨hct, ha, hb⟩ | ⟨hct, ha, hb⟩ <;> rw [ha, hb] <;> exact ⟨rfl, rfl⟩

/-- Witness for C6: one concrete successful call of each function, with the
input row indexes showing up unchanged in the outputs. -/
theorem c6_row_index_preserved_witness :
    (∃ a b : DF,
      fillMissing ⟨[0, 1], false, [⟨"a", true, [some 1, none]⟩]⟩
        ⟨[5], false, [⟨"a", true, [none]⟩]⟩
        [("numeric", ["a"]), ("categorical", [])] "mean" "mode" = .ok (a, b) ∧
      a.index = [0, 1] ∧ b.index = [5]) ∧
    (∃ a b : DFR,
      transformColumns ⟨[0, 1], false, [⟨"a", true, [some 1, some 2]⟩]⟩
        ⟨[5], false, [⟨"a", true, [some 1]⟩]⟩
        [("numeric", ["a"]), ("categorical", [])] "onehot_encoding"
        "standard_scaling" = .ok (a, b) ∧
      a.index = [0, 1] ∧ b.index = [5]) := by
  constructor
  · obtain ⟨a, b, h⟩ : ∃ a b, fillMissing ⟨[0, 1], false, [⟨"a", true, [some 1, none]⟩]⟩
        ⟨[5], false, [⟨"a", true, [none]⟩]⟩
        [("numeric", ["a"]), ("categorical", [])] "mean" "mode" = .ok (a, b) :=
      ⟨_, _, rfl⟩
    obtain ⟨h1, h2⟩ := c6_row_index_preserved.1 _ _ _ _ _ _ _ h
    exact ⟨a, b, h, h1, h2⟩
  · obtain ⟨a, b, h⟩ : ∃ a b, transformColumns
        ⟨[0, 1], false, [⟨"a", true, [some 1, some 2]⟩]⟩
        ⟨[5], false, [⟨"a", true, [some 1]⟩]⟩
        [("numeric", ["a"]), ("categorical", [])] "onehot_encoding"
        "standard_scaling" = .ok (a, b) := ⟨_, _, rfl⟩
    obtain ⟨h1, h2⟩ := c6_row_index_preserved.2 _ _ _ _ _ _ _ h
    exact ⟨a, b, h, h1, h2⟩

/-- Counterexample to C8 as stated.  With duplicated row-index labels the
pandas label-based assignment `X_train.loc[index_train, column] = col_imp`
writes to every row carrying a missing row's label: on the reference column
`[1, 5, NaN]` with index `[0, 1, 0]` the mean 3 of the non-missing values is
assigned to both rows labelled 0, so the previously non-missing first entry
changes from 1 to 3 — not only previously-missing entries change. -/
theorem c8_counterexample :
    fillMissing ⟨[0, 1, 0], false, [⟨"a", true, [some 1, some 5, none]⟩]⟩
      ⟨[0], false, [⟨"a", true, [some 2]⟩]⟩
      [("numeric", ["a"]), ("categorical", [])] "mean" "mode" =
      .ok (⟨[0, 1, 0], false, [⟨"a", true, [some 3, some 5, some 3]⟩]⟩,
           ⟨[0], false, [⟨"a", true, [some 2]⟩]⟩) ∧
    (⟨[0, 1, 0], false, [⟨"a", true, [some 1, some 5, none]⟩]⟩ : DF).getCol "a" =
      some [some 1, some 5, none] ∧
    (⟨[0, 1, 0], false, [⟨"a", true, [some 3, some 5, some 3]⟩]⟩ : DF).getCol "a" =
      some [some 3, some 5, some 3] := by
  refine ⟨?_, rfl, rfl⟩
  simp [fillMissing, fillCheck, keysOf, DF.colNames, lookupKey, numLoop, numStep,
    numericColImp, meanList, fillColInDF, DF.getCol, findCol, missingLabels,
    setByLabels, catLoop]
  norm_num

/-- C8 (amended): for every successful call whose frames are well-formed and
whose row-index labels are distinct, `fill_missing` returns the very
references it was given, with the filled frames written back through them
(the in-place mutation of the same objects), and the mutation is a frame:
row index, column names, and all columns not listed in the dictionary are
unchanged, and within listed columns every previously non-missing entry is
unchanged.  (Without the distinct-labels proviso the frame part fails, see
the counterexample.) -/
theorem c8_inplace_frame (h : Heap) (i j : ℕ) (tr te : DF) (cd : ColDict)
    (ni ci : String) (a b : DF) (nums cats : List String)
    (hi : h.get? i = some (.q tr)) (hj : h.get? j = some (.q te))
    (hok : fillMissing tr te cd ni ci = .ok (a, b))
    (hn : lookupKey cd "numeric" = some nums)
    (hc : lookupKey cd "categorical" = some cats)
    (hWFtr : tr.WF) (hWFte : te.WF)
    (hndtr : tr.index.Nodup) (hndte : te.index.Nodup) :
    fillMissingRef h i j cd ni ci = ((h.set i (.q a)).set j (.q b), .ok (i, j)) ∧
    a.index = tr.index ∧ b.index = te.index ∧
    a.colNames = tr.colNames ∧ b.colNames = te.colNames ∧
    (∀ nm, nm ∉ nums ++ cats → a.getCol nm = tr.getCol nm ∧ b.getCol nm = te.getCol nm) ∧
    (∀ nm vals vals', tr.getCol nm = some vals → a.getCol nm = some vals' →
      ∀ i0 x, vals.get? i0 = some (some x) → vals'.get? i0 = some (some x)) ∧
    (∀ nm vals vals', te.getCol nm = some vals → b.getCol nm = some vals' →
      ∀ i0 x, vals.get? i0 = some (some x) → vals'.get? i0 = some (some x)) := by
  obtain ⟨hchk, nums₀, cats₀, r, hn₀, hc₀, hr, ha, hb⟩ :=
    fillMissing_ok tr te cd ni ci a b hok
  have hnn : nums = nums₀ := Option.some_inj.1 (hn.symm.trans hn₀)
  subst hnn
  have hcc : cats = cats₀ := Option.some_inj.1 (hc.symm.trans hc₀)
  subst hcc
  have haP : a = applyPlan tr ((numPlanLoop ni nums tr).2 ++ r.2) := by
    rw [ha, catPlanLoop_fst _ _ _ hr, numPlanLoop_fst, ← applyPlan_append]
  have hkeys : ((numPlanLoop ni nums tr).2 ++ r.2).map Prod.fst = nums ++ cats := by
    rw [List.map_append, numPlanLoop_keys, catPlanLoop_keys _ _ _ hr]
  refine ⟨?_, ?_, ?_, ?_, ?_, ?_, ?_, ?_⟩
  · unfold fillMissingRef
    rw [hi, hj]
    simp only
    rw [hok]
  · rw [haP, applyPlan_index]
  · rw [hb, applyPlan_index]
  · rw [haP, applyPlan_colNames]
  · rw [hb, applyPlan_colNames]
  · intro nm hnm
    constructor
    · rw [haP, applyPlan_getCol_not_mem _ _ _ (by rw [hkeys]; exact hnm)]
    · rw [hb, applyPlan_getCol_not_mem _ _ _ (by rw [hkeys]; exact hnm)]
  · intro nm vals vals' hg hg' i0 x hx
    obtain ⟨vals'', hg'', hpres⟩ :=
      applyPlan_nonmissing ((numPlanLoop ni nums tr).2 ++ r.2) tr nm vals hWFtr hndtr hg
    rw [haP] at hg'
    rw [hg''] at hg'
    rw [← Option.some_inj.1 hg']
    exact hpres i0 x hx
  · intro nm vals vals' hg hg' i0 x hx
    obtain ⟨vals'', hg'', hpres⟩ :=
      applyPlan_nonmissing ((numPlanLoop ni nums tr).2 ++ r.2) te nm vals hWFte hndte hg
    rw [hb] at hg'
    rw [hg''] at hg'
    rw [← Option.some_inj.1 hg']
    exact hpres i0 x hx

/-- Witness for C8 (amended): a concrete heap holding two distinct-label
frames; the call writes the filled frames back through references 0 and 1
and returns those references. -/
theorem c8_inplace_frame_witness :
    ∃ a b : DF,
      fillMissing trW8 teW8 cdW "mean" "mode" = .ok (a, b) ∧
      fillMissingRef [Obj.q trW8, Obj.q teW8] 0 1 cdW "mean" "mode" =
        (([Obj.q trW8, Obj.q teW8].set 0 (Obj.q a)).set 1 (Obj.q b), .ok (0, 1)) ∧
      a.colNames = trW8.colNames ∧ b.colNames = teW8.colNames := by
  obtain ⟨a, b, h⟩ : ∃ a b, fillMissing trW8 teW8 cdW "mean" "mode" = .ok (a, b) :=
    ⟨_, _, rfl⟩
  obtain ⟨h1, _, _, h4, h5, _, _, _⟩ :=
    c8_inplace_frame [Obj.q trW8, Obj.q teW8] 0 1 trW8 teW8 cdW "mean" "mode" a b
      ["a"] [] rfl rfl h rfl rfl
      (by unfold DF.WF trW8; decide) (by unfold DF.WF teW8; decide)
      (by unfold trW8; decide) (by unfold teW8; decide)
  exact ⟨a, b, h, h1, h4, h5⟩

/-- C9: purity of `transform_columns`.  A successful reference-level call
allocates two fresh objects for the rebuilt frames, returns their (new)
references, and leaves every pre-existing heap object — in particular both
input datasets — untouched. -/
theorem c9_transform_pure (h : Heap) (i j : ℕ) (tr te : DF) (cd : ColDict)
    (ct nt : String) (a b : DFR)
    (hi : h.get? i = some (Obj.q tr)) (hj : h.get? j = some (Obj.q te))
    (hok : transformColumns tr te cd ct nt = .ok (a, b)) :
    transformColumnsRef h i j cd ct nt =
      (h ++ [Obj.r a, Obj.r b], .ok (h.length, h.length + 1)) ∧
    (∀ k, k < h.length → (h ++ [Obj.r a, Obj.r b]).get? k = h.get? k) ∧
    (h ++ [Obj.r a, Obj.r b]).get? h.length = some (Obj.r a) ∧
    (h ++ [Obj.r a, Obj.r b]).get? (h.length + 1) = some (Obj.r b) ∧
    h.length ≠ i ∧ h.length ≠ j ∧ h.length + 1 ≠ i ∧ h.length + 1 ≠ j := by
  have hilt : i < h.length := by
    by_contra hlt
    rw [List.get?_eq_none.2 (by omega)] at hi
    exact Option.noConfusion hi
  have hjlt : j < h.length := by
    by_contra hlt
    rw [List.get?_eq_none.2 (by omega)] at hj
    exact Option.noConfusion hj
  refine ⟨?_, ?_, ?_, ?_, by omega, by omega, by omega, by omega⟩
  · unfold transformColumnsRef
    rw [hi, hj]
    simp only
    rw [hok]
  · intro k hk
    exact List.get?_append hk
  · rw [List.get?_append_right (le_refl _)]
    simp
  · rw [List.get?_append_right (by omega)]
    simp only [Nat.add_sub_cancel_left]
    rfl

/-- Witness for C9: a concrete successful transform on a two-object heap;
the outputs land at the fresh references 2 and 3 and object 0 is
unchanged. -/
theorem c9_transform_pure_witness :
    ∃ a b : DFR,
      transformColumns trW9 teW9 cdW "onehot_encoding" "standard_scaling" =
        .ok (a, b) ∧
      transformColumnsRef [Obj.q trW9, Obj.q teW9] 0 1 cdW "onehot_encoding"
        "standard_scaling" =
        ([Obj.q trW9, Obj.q teW9] ++ [Obj.r a, Obj.r b], .ok (2, 3)) ∧
      ([Obj.q trW9, Obj.q teW9] ++ [Obj.r a, Obj.r b]).get? 0 = some (Obj.q trW9) := by
  obtain ⟨a, b, h⟩ : ∃ a b, transformColumns trW9 teW9 cdW "onehot_encoding"
      "standard_scaling" = .ok (a, b) := ⟨_, _, rfl⟩
  obtain ⟨h1, h2, _, _, _, _, _, _⟩ :=
    c9_transform_pure [Obj.q trW9, Obj.q teW9] 0 1 trW9 teW9 cdW
      "onehot_encoding" "standard_scaling" a b rfl rfl h
  exact ⟨a, b, h, h1, (h2 0 (by omega)).trans rfl⟩

/-! Lemmas about the transform builders. -/

theorem extractCols_ok (df : DF) (cs : List String) (ls : List (List ℚ))
    (h : extractCols df cs = .ok ls) : ls = cs.map (colQD df) := by
  induction cs generalizing ls with
  | nil =>
    unfold extractCols at h
    simp only [Except.ok.injEq] at h
    rw [← h]
    rfl
  | cons c rest ih =>
    unfold extractCols at h
    cases hq : colQ df c with
    | none => rw [hq] at h; exact Except.noConfusion h
    | some xs =>
      rw [hq] at h
      cases hr : extractCols df rest with
      | error m => rw [hr] at h; exact Except.noConfusion h
      | ok ls' =>
        rw [hr] at h
        simp only [Except.map, Except.ok.injEq] at h
        rw [← h, List.map_cons, ← ih ls' hr]
        unfold colQD
        rw [hq]
        rfl

theorem zip_self_map {α β : Type} (l : List α) (h : α → β) :
    l.zip (l.map h) = l.map (fun a => (a, h a)) := by
  induction l with
  | nil => rfl
  | cons x tl ih => simp only [List.map_cons, List.zip_cons_cons, ih]

theorem scaledCols_of_maps (nt : String) (names : List String)
    (f g : String → List ℚ) :
    scaledCols nt names (names.map f) (names.map g) =
      names.map (fun c => RCol.mk c ((g c).map (numTransform nt (f c)))) := by
  unfold scaledCols
  rw [List.zip_map', zip_self_map, List.map_map]
  rfl

theorem oheColsOf_of_maps (names : List String) (f g : String → List ℚ) :
    oheColsOf names (names.map f) (names.map g) =
      (names.map (fun c => ((categoriesOf (f c)).drop 1).map
        (fun l => RCol.mk (featName c l) (indicator l (g c))))).flatten := by
  unfold oheColsOf
  rw [List.zip_map', zip_self_map, List.map_map]
  rfl

theorem ordColsOf_of_maps (names : List String) (f g : String → List ℚ) :
    ordColsOf names (names.map f) (names.map g) =
      names.map (fun c => RCol.mk c ((g c).map
        (fun x => ((idxOf x (categoriesOf (f c)) : ℕ) : ℝ)))) := by
  unfold ordColsOf
  rw [List.zip_map', zip_self_map, List.map_map]
  rfl

theorem map_name_map_mk (names : List String) (h : String → List ℝ) :
    (names.map (fun c => RCol.mk c (h c))).map (fun col => col.name) = names := by
  rw [List.map_map]
  exact List.map_id names

theorem oheCols_names (names : List String) (f g : String → List ℚ) :
    (oheColsOf names (names.map f) (names.map g)).map (fun col => col.name) =
      (names.map (fun c => oheNamesFor c (categoriesOf (f c)))).flatten := by
  rw [oheColsOf_of_maps, List.map_flatten, List.map_map]
  congr 1
  apply List.map_congr_left
  intro c _
  simp only [Function.comp, List.map_map]
  rfl

theorem findRCol_append_left (c : String) (l₁ l₂ : List RCol) (col : RCol)
    (h : findRCol c l₁ = some col) : findRCol c (l₁ ++ l₂) = some col := by
  induction l₁ with
  | nil => exact Option.noConfusion h
  | cons hd tl ih =>
    simp only [findRCol] at h
    simp only [List.cons_append, findRCol]
    by_cases hn : hd.name = c
    · rw [if_pos hn] at h ⊢; exact h
    · rw [if_neg hn] at h ⊢; exact ih h

theorem findRCol_map_self (c : String) (l : List String) (h : String → List ℝ)
    (hc : c ∈ l) :
    findRCol c (l.map (fun nm => RCol.mk nm (h nm))) = some (RCol.mk c (h c)) := by
  induction l with
  | nil => exact absurd hc (List.not_mem_nil c)
  | cons hd tl ih =>
    simp only [List.map_cons]
    unfold findRCol
    by_cases hn : hd = c
    · subst hn
      rw [if_pos rfl]
    · rw [if_neg (show (RCol.mk hd (h hd)).name = c → False from hn)]
      exact ih (List.mem_cons.1 hc |>.resolve_left (fun he => hn he.symm))

theorem varQ_nonneg (xs : List ℚ) : 0 ≤ varQ xs := by
  unfold varQ
  apply div_nonneg
  · apply List.sum_nonneg
    intro y hy
    obtain ⟨x, _, hx⟩ := List.mem_map.1 hy
    rw [← hx]
    exact sq_nonneg _
  · exact Nat.cast_nonneg _

/-- C5: one-hot output shape.  Under a successful call with one-hot
encoding, the output columns of the reference frame are the numeric columns
in their listed order followed, per categorical column, by one indicator
column per fitted category level except the first; the target frame carries
exactly the same column names in the same order; and a categorical column
with `k` distinct reference levels contributes exactly `k - 1` indicator
columns. -/
theorem c5_onehot_shape (tr te : DF) (cd : ColDict) (nt : String) (a b : DFR)
    (nums cats : List String)
    (h : transformColumns tr te cd "onehot_encoding" nt = .ok (a, b))
    (hn : lookupKey cd "numeric" = some nums)
    (hc : lookupKey cd "categorical" = some cats) :
    a.colNames = nums ++
      (cats.map (fun c => oheNamesFor c (categoriesOf (colQD tr c)))).flatten ∧
    b.colNames = a.colNames ∧
    ∀ c ∈ cats, (oheNamesFor c (categoriesOf (colQD tr c))).length =
      (colQD tr c).dedup.length - 1 := by
  obtain ⟨hchk, nums₀, cats₀, trN, trC, teN, teC, hn₀, hc₀, htrN, htrC, hteN, hteC,
    hbr⟩ := transformColumns_ok tr te cd "onehot_encoding" nt a b h
  have hnn : nums = nums₀ := Option.some_inj.1 (hn.symm.trans hn₀)
  subst hnn
  have hcc : cats = cats₀ := Option.some_inj.1 (hc.symm.trans hc₀)
  subst hcc
  rcases hbr with ⟨_, ha, hb⟩ | ⟨hct, _, _⟩
  swap
  · exact absurd rfl hct
  have etrN : trN = nums.map (colQD tr) := extractCols_ok tr nums trN htrN
  have etrC : trC = cats.map (colQD tr) := extractCols_ok tr cats trC htrC
  have eteN : teN = nums.map (colQD te) := extractCols_ok te nums teN hteN
  have eteC : teC = cats.map (colQD te) := extractCols_ok te cats teC hteC
  subst etrN; subst etrC; subst eteN; subst eteC
  have haN : a.colNames = nums ++
      (cats.map (fun c => oheNamesFor c (categoriesOf (colQD tr c)))).flatten := by
    rw [ha]
    unfold DFR.colNames
    simp only [List.map_append]
    rw [scaledCols_of_maps, map_name_map_mk, oheCols_names]
  refine ⟨haN, ?_, ?_⟩
  · rw [hb, haN]
    unfold DFR.colNames
    simp only [List.map_append]
    rw [scaledCols_of_maps, map_name_map_mk, oheCols_names]
  · intro c _
    unfold oheNamesFor
    rw [List.length_map, List.length_drop]
    unfold categoriesOf
    rw [(List.perm_insertionSort _ _).length_eq]

/-- Witness for C5: a reference categorical column with the three levels
1, 2, 3 produces exactly two indicator columns, after the single numeric
column, with identical names in both outputs. -/
theorem c5_onehot_shape_witness :
    ∃ a b : DFR,
      transformColumns
        ⟨[0, 1, 2], false, [⟨"n", true, [some 1, some 2, some 3]⟩,
                            ⟨"c", true, [some 1, some 2, some 3]⟩]⟩
        ⟨[9], false, [⟨"n", true, [some 1]⟩, ⟨"c", true, [some 2]⟩]⟩
        [("numeric", ["n"]), ("categorical", ["c"])] "onehot_encoding"
        "standard_scaling" = .ok (a, b) ∧
      a.colNames = ["n"] ++
        (oheNamesFor "c" (categoriesOf [1, 2, 3])) ∧
      b.colNames = a.colNames ∧
      (oheNamesFor "c" (categoriesOf [1, 2, 3])).length = 2 := by
  obtain ⟨a, b, h⟩ : ∃ a b, transformColumns
      ⟨[0, 1, 2], false, [⟨"n", true, [some 1, some 2, some 3]⟩,
                          ⟨"c", true, [some 1, some 2, some 3]⟩]⟩
      ⟨[9], false, [⟨"n", true, [some 1]⟩, ⟨"c", true, [some 2]⟩]⟩
      [("numeric", ["n"]), ("categorical", ["c"])] "onehot_encoding"
      "standard_scaling" = .ok (a, b) := ⟨_, _, rfl⟩
  obtain ⟨h1, h2, h3⟩ := c5_onehot_shape _ _ _ "standard_scaling" a b ["n"] ["c"]
    h rfl rfl
  have hcol : colQD ⟨[0, 1, 2], false, [⟨"n", true, [some 1, some 2, some 3]⟩,
      ⟨"c", true, [some 1, some 2, some 3]⟩]⟩ "c" = [1, 2, 3] := by
    simp [colQD, colQ, cellsQ, DF.getCol, findCol]
  refine ⟨a, b, h, ?_, h2, ?_⟩
  · rw [h1]
    simp [hcol]
  · have := h3 "c" (by simp)
    rw [hcol] at this
    rw [this]
    decide

/-- C7: standard-scaling round trip.  Under a successful call with
`num_trans = standard_scaling`, every transformed reference value of a
listed numeric column, multiplied by the fitted standard deviation
`Real.sqrt (varQ fit)` and shifted by the fitted mean `meanList fit`,
recovers the original value exactly, provided the fitted variance is
nonzero. -/
theorem c7_standard_scaling_roundtrip (tr te : DF) (cd : ColDict) (ct : String)
    (a b : DFR) (nums cats : List String) (c : String)
    (h : transformColumns tr te cd ct "standard_scaling" = .ok (a, b))
    (hn : lookupKey cd "numeric" = some nums)
    (hc : lookupKey cd "categorical" = some cats)
    (hmem : c ∈ nums)
    (hvar : varQ (colQD tr c) ≠ 0) :
    ∃ out, a.getCol c = some out ∧
      out = (colQD tr c).map (numTransform "standard_scaling" (colQD tr c)) ∧
      ∀ i t x, out.get? i = some t → (colQD tr c).get? i = some x →
        t * Real.sqrt (((varQ (colQD tr c) : ℚ) : ℝ)) +
          ((meanList (colQD tr c) : ℚ) : ℝ) = (x : ℝ) := by
  obtain ⟨hchk, nums₀, cats₀, trN, trC, teN, teC, hn₀, hc₀, htrN, htrC, hteN, hteC,
    hbr⟩ := transformColumns_ok tr te cd ct "standard_scaling" a b h
  have hnn : nums = nums₀ := Option.some_inj.1 (hn.symm.trans hn₀)
  subst hnn
  have hcc : cats = cats₀ := Option.some_inj.1 (hc.symm.trans hc₀)
  subst hcc
  have etrN : trN = nums.map (colQD tr) := extractCols_ok tr nums trN htrN
  subst etrN
  have hfind : a.getCol c =
      some ((colQD tr c).map (numTransform "standard_scaling" (colQD tr c))) := by
    rcases hbr with ⟨_, ha, _⟩ | ⟨_, ha, _⟩ <;>
    · rw [ha]
      unfold DFR.getCol
      rw [scaledCols_of_maps,
        findRCol_append_left c _ _ _ (findRCol_map_self c nums _ hmem)]
      rfl
  refine ⟨_, hfind, rfl, ?_⟩
  intro i t x ht hx
  rw [List.get?_map, hx] at ht
  simp only [Option.map_some', Option.some_inj] at ht
  have hpos : (0 : ℝ) < ((varQ (colQD tr c) : ℚ) : ℝ) := by
    have h1 : (0 : ℚ) < varQ (colQD tr c) :=
      lt_of_le_of_ne (varQ_nonneg _) (Ne.symm hvar)
    exact_mod_cast h1
  have hs : Real.sqrt (((varQ (colQD tr c) : ℚ) : ℝ)) ≠ 0 :=
    ne_of_gt (Real.sqrt_pos.2 hpos)
  rw [← ht]
  unfold numTransform
  rw [if_pos rfl]
  unfold stdScaleR
  rw [if_neg hvar, div_mul_cancel₀ _ hs]
  ring

/-- Witness for C7: reference column `[1, 2]` has mean `3/2` and variance
`1/4`, so the fitted standard deviation is `1/2`; the round trip recovers
the original values, e.g. at row 0. -/
theorem c7_standard_scaling_roundtrip_witness :
    varQ (colQD trW9 "a") = 1 / 4 ∧
    meanList (colQD trW9 "a") = 3 / 2 ∧
    (∃ a b : DFR, ∃ out,
      transformColumns trW9 teW9 cdW "onehot_encoding" "standard_scaling" =
        .ok (a, b) ∧
      a.getCol "a" = some out ∧
      ∀ i t x, out.get? i = some t → (colQD trW9 "a").get? i = some x →
        t * Real.sqrt (((varQ (colQD trW9 "a") : ℚ) : ℝ)) +
          ((meanList (colQD trW9 "a") : ℚ) : ℝ) = (x : ℝ)) := by
  have hcol : colQD trW9 "a" = [1, 2] := by
    simp [colQD, colQ, cellsQ, DF.getCol, findCol, trW9]
  refine ⟨?_, ?_, ?_⟩
  · rw [hcol]
    norm_num [varQ, meanList]
  · rw [hcol]
    norm_num [meanList]
  · obtain ⟨a, b, h⟩ : ∃ a b, transformColumns trW9 teW9 cdW "onehot_encoding"
        "standard_scaling" = .ok (a, b) := ⟨_, _, rfl⟩
    obtain ⟨out, ho, _, hrt⟩ := c7_standard_scaling_roundtrip trW9 teW9 cdW
      "onehot_encoding" a b ["a"] [] "a" h rfl rfl (by decide)
      (by rw [hcol]; norm_num [varQ, meanList])
    exact ⟨a, b, out, h, ho, hrt⟩

/-- C10: the implicit key-presence gap.  The dictionary `[("numeric", ["a"])]`
passes every validation assertion of `fill_missing` (its check chain returns
`none`), yet the call fails afterwards with a bare KeyError when indexing the
missing `categorical` key — while `transform_columns` on the same input is
rejected up front by its exactly-two-keys assertion with a descriptive
message. -/
theorem c10_key_presence_gap :
    fillCheck ⟨[0], false, [⟨"a", true, [some 1]⟩]⟩
      ⟨[0], false, [⟨"a", true, [some 1]⟩]⟩ [("numeric", ["a"])] "mean" "mode" = none ∧
    fillMissing ⟨[0], false, [⟨"a", true, [some 1]⟩]⟩
      ⟨[0], false, [⟨"a", true, [some 1]⟩]⟩ [("numeric", ["a"])] "mean" "mode" =
      .error "KeyError: categorical" ∧
    transformColumns ⟨[0], false, [⟨"a", true, [some 1]⟩]⟩
      ⟨[0], false, [⟨"a", true, [some 1]⟩]⟩ [("numeric", ["a"])]
      "onehot_encoding" "standard_scaling" =
      .error "column_dict should have 2 keys - numeric and categorical" :=
  ⟨rfl, rfl, rfl⟩

end Pylaundry
